import Mathlib

/-!
Formal model of the GitLab merge-request fetch layer of the dev-portal
repository (`mr_fetcher.py`): the `_throttle` rate limiter, the TTL result
cache, and the aggregating `fetch_gitlab_mrs`.

Modelling conventions:
* Clock instants (`time.monotonic()` values) are modelled in exact integer
  microseconds.  Every comparison the source performs on times is exact
  linear rational arithmetic — `(now - last) * 1000 < min_interval_ms`
  (seconds to milliseconds) and `now - ts <= cache_ttl` (seconds) — so each
  transfers exactly to the microsecond scale: multiply through by the
  positive constants `1000` and `1000000`.  Sleep durations are likewise
  exact in microseconds, and the `_now()` re-read after `time.sleep(s)` is
  modelled as the instant `now + s`; the network call itself is treated as
  instantaneous.
* The process-global mutable state (`_CACHE` and `_LAST_REQUEST_TS`) is
  threaded explicitly as a state value.
* The network is an oracle mapping an outbound request to a response; a
  raised transport exception and an unparseable JSON body are explicit
  response shapes.
* Python string primitives (`strip`, `split`, `int()`, tuple ordering) are
  implemented structurally over character lists with the semantics CPython
  gives them on the inputs in question.
* The aggregate function additionally returns the list of outbound requests
  it performed and the per-subject contributed lists, as observable
  instrumentation of the run (the source performs these effects).
-/

namespace MrFetcher

/-- One call to `_throttle` (mr_fetcher.py lines 19-30), as a function of the
current instant `now`, the shared `_LAST_REQUEST_TS` value `lastTs`, and the
configured minimum interval in milliseconds.  Returns the slept duration in
microseconds together with the new `_LAST_REQUEST_TS`.  The source's test
`(now - last) * 1000 < min_interval_ms` on seconds and its sleep of
`(min_interval_ms - elapsed_ms) / 1000` seconds are the microsecond test
`now - last < min_interval_ms * 1000` and a sleep of
`min_interval_ms * 1000 - (now - last)` microseconds. -/
def _throttle (min_interval_ms : ℤ) (now : ℤ) (lastTs : Option ℤ) :
    ℤ × Option ℤ :=
  if min_interval_ms ≤ 0 then (0, lastTs)
  else
    match lastTs with
    | none => (0, some now)
    | some last =>
        if now - last < min_interval_ms * 1000 then
          (min_interval_ms * 1000 - (now - last),
           some (now + (min_interval_ms * 1000 - (now - last))))
        else (0, some now)

/-- Claim C8: `_throttle` never blocks when the interval is ≤ 0 (and leaves the
shared timestamp alone), never blocks on the first call (no recorded last
call) while recording the current instant, never sleeps a negative amount,
and when a last-call instant is recorded and the interval is positive, the
caller wakes only once at least `min_interval_ms` milliseconds (that is,
`min_interval_ms * 1000` microseconds) have elapsed since that recorded
instant — the instant at which the previous timestamp-updating `_throttle`
call returned — and the shared timestamp is then updated to the wake-up
instant, the current time after the wait. -/
theorem throttle_spec (m : ℤ) (now : ℤ) (lastTs : Option ℤ) :
    (m ≤ 0 → _throttle m now lastTs = (0, lastTs)) ∧
    (lastTs = none → (_throttle m now lastTs).1 = 0) ∧
    (0 < m → lastTs = none → _throttle m now lastTs = (0, some now)) ∧
    (0 ≤ (_throttle m now lastTs).1) ∧
    (∀ last, 0 < m → lastTs = some last →
      last + m * 1000 ≤ now + (_throttle m now lastTs).1 ∧
      (_throttle m now lastTs).2 = some (now + (_throttle m now lastTs).1)) := by
  by_cases hm : m ≤ 0
  · simp only [_throttle, if_pos hm]
    exact ⟨fun _ => trivial, fun _ => trivial, fun h0 _ => absurd h0 (by omega),
           le_refl 0, fun l h0 _ => absurd h0 (by omega)⟩
  · cases lastTs with
    | none =>
        simp only [_throttle, if_neg hm]
        exact ⟨fun h => absurd h hm, fun _ => trivial, fun _ _ => trivial, le_refl 0,
               fun l _ hl => by cases hl⟩
    | some last =>
        constructor
        · intro h; exact absurd h hm
        constructor
        · intro h; cases h
        constructor
        · intro _ h; cases h
        constructor
        · by_cases he : now - last < m * 1000
          · simp [_throttle, hm, he]
            omega
          · simp [_throttle, hm, he]
        · intro l _ hl
          injection hl with hl
          subst hl
          by_cases he : now - last < m * 1000
          · simp [_throttle, hm, he]
            omega
          · simp [_throttle, hm, he]
            omega

/-- Witness for `throttle_spec` at a concrete input: with a 200 ms interval
and 50 ms elapsed since the recorded instant 3 s, the caller wakes at 3.2 s
and the shared timestamp becomes 3.2 s (all in microseconds). -/
theorem throttle_spec_witness :
    (3000000 : ℤ) + 200 * 1000 ≤ 3050000 + (_throttle 200 3050000 (some 3000000)).1 ∧
    (_throttle 200 3050000 (some 3000000)).2 =
      some ((3050000 : ℤ) + (_throttle 200 3050000 (some 3000000)).1) :=
  (throttle_spec 200 3050000 (some 3000000)).2.2.2.2 3000000 (by decide) rfl

/-- A JSON-serialisable query-parameter value (the values the fetch layer
actually manipulates are ints and strings). -/
inductive Value where
  | vInt (n : ℤ)
  | vStr (s : String)
deriving DecidableEq, Repr

/-- One upstream merge-request record.  The fetch layer treats it as an opaque
dict and reads only `mr.get("id")`; `id = none` models a missing or non-int
`"id"` field, `payload` stands for the rest of the record. -/
structure MR where
  id : Option ℤ
  payload : ℕ
deriving DecidableEq, Repr

/-- A parsed JSON response body as far as the fetch layer inspects it:
either a list of records, or some other JSON value (which fails the
`isinstance(data, list)` test and contributes nothing). -/
inductive Json where
  | list (mrs : List MR)
  | other
deriving DecidableEq, Repr

/-- A query-parameter mapping (`dict[str, object]`), as an association list in
insertion order; keys are unique in an actual dict. -/
abbrev Params := List (String × Value)

/-- `d.get(k)` on a dict: first binding of `k`. -/
def paramsGet (p : Params) (k : String) : Option Value :=
  (p.find? (fun q => q.1 = k)).map (·.2)

/-- `d[k] = v` on a dict: replace in place if present, else append. -/
def paramsSet (p : Params) (k : String) (v : Value) : Params :=
  if (p.find? (fun q => q.1 = k)).isSome then
    p.map (fun q => if q.1 = k then (k, v) else q)
  else
    p ++ [(k, v)]

/-- Python `str.strip()` on a character list: drop whitespace from both
ends. -/
def stripChars (cs : List Char) : List Char :=
  ((cs.dropWhile Char.isWhitespace).reverse.dropWhile Char.isWhitespace).reverse

/-- Python `str.strip()`. -/
def pyStrip (s : String) : String :=
  String.mk (stripChars s.data)

/-- Python `str.split(",")` on a character list: cut at every comma (no
merging of adjacent separators; the empty string yields `[""]`). -/
def splitComma : List Char → List (List Char)
  | [] => [[]]
  | c :: cs =>
      let r := splitComma cs
      if c = ',' then [] :: r
      else
        match r with
        | h :: t => (c :: h) :: t
        | [] => [[c]]

/-- Python `str.split(",")`. -/
def pySplitComma (s : String) : List String :=
  (splitComma s.data).map String.mk

/-- The numeric value of a non-empty all-digit character list. -/
def digitsToNat : List Char → Option ℕ
  | [] => none
  | cs =>
      if cs.all (fun c => '0'.toNat ≤ c.toNat ∧ c.toNat ≤ '9'.toNat) then
        some (cs.foldl (fun acc c => 10 * acc + (c.toNat - '0'.toNat)) 0)
      else none

/-- `int(x)` on a string: strip whitespace, one optional sign, decimal
digits; anything else raises, modelled as `none`.  (CPython additionally
accepts underscore digit separators, which no configuration in question
uses.) -/
def pyParseInt (s : String) : Option ℤ :=
  match stripChars s.data with
  | '+' :: rest => (digitsToNat rest).map (fun n => (n : ℤ))
  | '-' :: rest => (digitsToNat rest).map (fun n => -(n : ℤ))
  | rest => (digitsToNat rest).map (fun n => (n : ℤ))

/-- `int(x)` on a parameter value (raises → `none`). -/
def pyInt : Value → Option ℤ
  | .vInt n => some n
  | .vStr s => pyParseInt s

/-- `json.dumps(v, sort_keys=True)` for the scalar values above. -/
def jsonDumps : Value → String
  | .vInt n => toString n
  | .vStr s =>
      let esc : Char → String := fun c =>
        if c = '"' ∨ c = '\\' then String.mk ['\\', c] else String.singleton c
      "\"" ++ String.join (s.data.map esc) ++ "\""

/-- Lexicographic (code-point) comparison of character lists, as CPython
compares strings. -/
def charsLe : List Char → List Char → Bool
  | [], _ => true
  | _ :: _, [] => false
  | a :: as, b :: bs =>
      if a = b then charsLe as bs
      else decide (a.toNat < b.toNat)

/-- Lexicographic comparison of `(key, dumped value)` pairs, as Python's
`sorted` compares tuples of strings. -/
def pairLe (a b : String × String) : Prop :=
  (a.1 ≠ b.1 ∧ charsLe a.1.data b.1.data = true) ∨
  (a.1 = b.1 ∧ charsLe a.2.data b.2.data = true)

instance : DecidableRel pairLe := fun a b => by
  unfold pairLe
  infer_instance

/-- `tuple(sorted((k, json.dumps(v, sort_keys=True)) for k, v in params.items()))`
(mr_fetcher.py line 98): the canonical frozen form of a parameter mapping.
(`sorted` and a stable insertion sort agree: the comparison is a linear
order on the pairs.) -/
def freezeParams (p : Params) : List (String × String) :=
  (p.map (fun q => (q.1, jsonDumps q.2))).insertionSort pairLe

/-- A cache key: `(api_url.rstrip("/"), uname, frozen_params)`. -/
abbrev CacheKey := String × String × List (String × String)

/-- A cache entry `{"ts": ..., "data": ...}`. -/
structure CacheEntry where
  ts : ℤ
  data : Json
deriving DecidableEq

/-- The process-wide `_CACHE` dict, as an association list where the most
recent binding of a key shadows older ones (dict overwrite). -/
abbrev Cache := List (CacheKey × CacheEntry)

/-- `_CACHE.get(key)`. -/
def cacheGet (c : Cache) (k : CacheKey) : Option CacheEntry :=
  (c.find? (fun p => p.1 = k)).map (·.2)

/-- `_CACHE[key] = entry` (overwrite by shadowing). -/
def cacheSet (c : Cache) (k : CacheKey) (e : CacheEntry) : Cache :=
  (k, e) :: c

/-- The cache read of mr_fetcher.py lines 102-104: the entry's data is
served exactly when an entry exists and `now - ts <= cache_ttl` — in
microseconds, `now - ts ≤ cache_ttl * 1000000`. -/
def cacheServe (c : Cache) (k : CacheKey) (now : ℤ) (ttl : ℤ) : Option Json :=
  match cacheGet c k with
  | some e => if now - e.ts ≤ ttl * 1000000 then some e.data else none
  | none => none

/-- `s.rstrip("/")`. -/
def rstripSlash (s : String) : String :=
  String.mk (((s.data.reverse).dropWhile (fun c => c = '/')).reverse)

/-- Python truthiness of an optional string (`None` and `""` are falsy). -/
def truthy : Option String → Bool
  | none => false
  | some s => !(s == "")

/-- `s or None`: `""` becomes `None`. -/
def strOrNone (s : String) : Option String :=
  if s = "" then none else some s

/-- `int(os.getenv(name, defaultRepr))` guarded by `try/except` with default
`d` (the source always passes the decimal spelling of `d` as the `getenv`
default, so unset, like unparseable, resolves to `d`). -/
def readIntEnv (v : Option String) (d : ℤ) : ℤ :=
  match v with
  | none => d
  | some s => (pyParseInt s).getD d

/-- The environment variables `fetch_gitlab_mrs` reads. -/
structure Env where
  gitlab_api_url : Option String
  gitlab_token : Option String
  gitlab_username : Option String
  gitlab_max_assignees : Option String
  gitlab_cache_ttl_seconds : Option String
  gitlab_min_interval_ms : Option String

/-- An outbound request: the rstripped base URL plus the per-subject query
parameters (`one_params`, which include `assignee_username`); `uname` is the
subject the request was issued for. -/
structure Request where
  root : String
  uname : String
  params : Params
deriving DecidableEq, Repr

/-- What the network oracle yields for a request: a raised transport
exception, or a response with an HTTP status and a body that either parses
to a JSON value or is malformed (`none`). -/
inductive NetResp where
  | exn
  | resp (status : ℤ) (body : Option Json)

/-- The network oracle. -/
abbrev Net := Request → NetResp

/-- An error escaping `fetch_gitlab_mrs`: the explicit
`RuntimeError(f"GitLab API returned HTTP {status} for assignee {uname}")`
of line 118 (carrying the status code), or a propagated transport
exception from `urlopen`. -/
inductive FetchErr where
  | http (status : ℤ) (uname : String)
  | transport (uname : String)
deriving DecidableEq, Repr

instance {ε α : Type} [DecidableEq ε] [DecidableEq α] : DecidableEq (Except ε α) :=
  fun a b =>
    match a, b with
    | .ok x, .ok y =>
        if h : x = y then isTrue (by rw [h]) else isFalse (by intro hh; cases hh; exact h rfl)
    | .error x, .error y =>
        if h : x = y then isTrue (by rw [h]) else isFalse (by intro hh; cases hh; exact h rfl)
    | .ok _, .error _ => isFalse (by intro hh; cases hh)
    | .error _, .ok _ => isFalse (by intro hh; cases hh)

/-- Lines 50-54: parse the comma-separated raw assignee string, falling back
to the default username only when the raw string itself is falsy. -/
def resolveAssignees (assignees_raw : String) (default_username : String) : List String :=
  if assignees_raw ≠ "" then
    ((pySplitComma assignees_raw).map pyStrip).filter (fun a => a ≠ "")
  else if default_username ≠ "" then [default_username]
  else []

/-- Lines 70-79: the effective `per_page` value — caller value (default 20,
unparseable → 20), clamped above at 40, and non-positive values replaced by
20. -/
def clampPerPage (params : Params) : ℤ :=
  let pp : ℤ :=
    match paramsGet params "per_page" with
    | none => 20
    | some v => (pyInt v).getD 20
  let pp := if pp > 40 then 40 else pp
  if pp ≤ 0 then 20 else pp

/-- The record list a parsed body contributes to the aggregate: the list
itself if the JSON value is a list, nothing otherwise (the
`isinstance(data, list)` guard of line 127; the `or []` of line 104 maps
falsy cached data to `[]`, with the same empty contribution). -/
def contributed : Json → List MR
  | .list l => l
  | .other => []

/-- Lines 128-134: append the records of one subject's result list to the
aggregate, skipping records whose int identity was already seen and
recording newly seen identities; records without an int identity are always
appended. -/
def dedupAppend : List ℤ → List MR → List MR → List ℤ × List MR
  | seen, agg, [] => (seen, agg)
  | seen, agg, mr :: rest =>
      match mr.id with
      | some i =>
          if i ∈ seen then dedupAppend seen agg rest
          else dedupAppend (i :: seen) (agg ++ [mr]) rest
      | none => dedupAppend seen (agg ++ [mr]) rest

/-- The mutable state of one aggregate call: the shared cache and throttle
timestamp, the current instant, the accumulators `aggregated` / `seen_ids`,
and (as instrumentation) the outbound requests performed and each processed
subject's contributed result list. -/
structure LoopSt where
  cache : Cache
  lastTs : Option ℤ
  t : ℤ
  agg : List MR
  seen : List ℤ
  log : List Request
  datas : List (List MR)

/-- The cache key of line 99 for subject `uname`:
`(api_url.rstrip("/"), uname, frozen_params)`, where `one_params` is
`safe_params` plus `assignee_username = uname`. -/
def mkKey (root : String) (safeParams : Params) (uname : String) : CacheKey :=
  (root, uname, freezeParams (paramsSet safeParams "assignee_username" (.vStr uname)))

/-- The outbound request for subject `uname` (lines 109-114): the rstripped
base URL and `one_params` = `safe_params` plus `assignee_username = uname`. -/
def reqFor (root : String) (safeParams : Params) (uname : String) : Request :=
  ⟨root, uname, paramsSet safeParams "assignee_username" (.vStr uname)⟩

/-- Merge one subject's parsed data into the aggregate (lines 127-134),
recording the contributed list. -/
def mergeData (s : LoopSt) (j : Json) : LoopSt :=
  { s with agg := (dedupAppend s.seen s.agg (contributed j)).2,
           seen := (dedupAppend s.seen s.agg (contributed j)).1,
           datas := s.datas ++ [contributed j] }

/-- The state after the `_throttle` call of line 107 and the issuing of the
outbound request `req` (lines 109-116): the shared timestamp is updated, the
clock advances by the slept duration, and the request is logged. -/
def afterThrottle (min_interval_ms : ℤ) (s : LoopSt) (req : Request) : LoopSt :=
  { s with lastTs := (_throttle min_interval_ms s.t s.lastTs).2,
           t := s.t + (_throttle min_interval_ms s.t s.lastTs).1,
           log := s.log ++ [req] }

/-- One iteration of the per-assignee loop (lines 94-134) for subject
`uname`: consult the cache; on a miss, throttle, perform the upstream
request (non-200 status and transport exceptions abort the call), parse the
body (malformed → empty list) and store it in the cache; then merge the data
into the aggregate with first-occurrence dedup.  Returns the updated state
and, when the iteration raised, the error (state mutations made before the
raise persist, as the cache and timestamp are process globals). -/
def subjectStep (net : Net) (root : String) (safeParams : Params)
    (cache_ttl min_interval_ms : ℤ) (uname : String) (s : LoopSt) :
    LoopSt × Option FetchErr :=
  match cacheServe s.cache (mkKey root safeParams uname) s.t cache_ttl with
  | some cached => (mergeData s cached, none)
  | none =>
      match net (reqFor root safeParams uname) with
      | .exn => (afterThrottle min_interval_ms s (reqFor root safeParams uname),
                 some (.transport uname))
      | .resp status body =>
          if status ≠ 200 then
            (afterThrottle min_interval_ms s (reqFor root safeParams uname),
             some (.http status uname))
          else
            (mergeData
              { afterThrottle min_interval_ms s (reqFor root safeParams uname) with
                  cache := cacheSet s.cache (mkKey root safeParams uname)
                    ⟨(afterThrottle min_interval_ms s (reqFor root safeParams uname)).t,
                     body.getD (.list [])⟩ }
              (body.getD (.list [])),
             none)

/-- The per-assignee loop: run `subjectStep` over the subjects in order,
stopping at the first raised error (whose partial state persists). -/
def runLoop (net : Net) (root : String) (safeParams : Params)
    (cache_ttl min_interval_ms : ℤ) :
    List String → LoopSt → LoopSt × Option FetchErr
  | [], s => (s, none)
  | uname :: rest, s =>
      match subjectStep net root safeParams cache_ttl min_interval_ms uname s with
      | (s', none) => runLoop net root safeParams cache_ttl min_interval_ms rest s'
      | (s', some e) => (s', some e)

/-- The shared process state across aggregate calls: `_CACHE` and
`_LAST_REQUEST_TS`. -/
structure St where
  cache : Cache
  lastTs : Option ℤ

/-- What one call to `fetch_gitlab_mrs` produces: the returned pair (or the
escaped error), the shared state afterwards, and the instrumentation (the
outbound requests performed and the per-subject contributed lists). -/
structure FetchOut where
  result : Except FetchErr (Option (List MR) × Option String)
  st : St
  log : List Request
  datas : List (List MR)

/-- Lines 60-65: the fan-out cap — when `max_assignees > 0` and the subject
list is longer, keep only the first `max_assignees` subjects. -/
def capSubjects (max_assignees : ℤ) (us : List String) : List String :=
  if max_assignees > 0 ∧ (us.length : ℤ) > max_assignees then
    us.take max_assignees.toNat
  else us

/-- The per-assignee loop of one configured `fetch_gitlab_mrs` call, with
all the configuration reads resolved (lines 59-134): the loop runs over the
parsed, capped subject list with the clamped `safe_params`, starting from
the shared state at instant `t0` with empty accumulators. -/
def fetchRun (env : Env) (net : Net) (assignees_raw : String)
    (params : Params) (t0 : ℤ) (st : St) : LoopSt × Option FetchErr :=
  runLoop net (rstripSlash (env.gitlab_api_url.getD ""))
    (paramsSet params "per_page" (.vInt (clampPerPage params)))
    (readIntEnv env.gitlab_cache_ttl_seconds 30)
    (readIntEnv env.gitlab_min_interval_ms 200)
    (capSubjects (readIntEnv env.gitlab_max_assignees 10)
      (resolveAssignees assignees_raw (pyStrip (env.gitlab_username.getD ""))))
    ⟨st.cache, st.lastTs, t0, [], [], [], []⟩

/-- `fetch_gitlab_mrs(assignees_raw, params)` (mr_fetcher.py lines 33-136),
called at instant `t0` with environment `env`, network oracle `net`, and
shared state `st`. -/
def fetch_gitlab_mrs (env : Env) (net : Net) (assignees_raw : String)
    (params : Params) (t0 : ℤ) (st : St) : FetchOut :=
  if !(truthy env.gitlab_api_url) || !(truthy env.gitlab_token) then
    ⟨.ok (none, none), st, [], []⟩
  else
    let default_username := pyStrip (env.gitlab_username.getD "")
    if (resolveAssignees assignees_raw default_username).isEmpty then
      ⟨.ok (some [], strOrNone default_username), st, [], []⟩
    else
      let run := fetchRun env net assignees_raw params t0 st
      match run.2 with
      | some e => ⟨.error e, ⟨run.1.cache, run.1.lastTs⟩, run.1.log, run.1.datas⟩
      | none => ⟨.ok (some run.1.agg, strOrNone default_username),
                 ⟨run.1.cache, run.1.lastTs⟩, run.1.log, run.1.datas⟩

/-! ### Lemmas about the dict and cache models -/

theorem paramsGet_map_set (k : String) (v : Value) (p : Params)
    (h : (List.find? (fun q => decide (q.1 = k)) p).isSome) :
    paramsGet (p.map (fun q => if q.1 = k then (k, v) else q)) k = some v := by
  induction p with
  | nil => simp at h
  | cons q rest ih =>
      by_cases hq : q.1 = k
      · simp [paramsGet, hq]
      · have hr : (List.find? (fun q => decide (q.1 = k)) rest).isSome := by
          rwa [List.find?_cons_of_neg _ (by simpa using hq)] at h
        have := ih hr
        simp only [paramsGet] at this ⊢
        rw [List.map_cons, if_neg hq, List.find?_cons_of_neg _ (by simpa using hq)]
        exact this

theorem paramsGet_append_single (k : String) (v : Value) (p : Params)
    (h : List.find? (fun q => decide (q.1 = k)) p = none) :
    paramsGet (p ++ [(k, v)]) k = some v := by
  induction p with
  | nil => simp [paramsGet]
  | cons q rest ih =>
      have hq : ¬ q.1 = k := by
        intro hc
        simp [List.find?_cons, hc] at h
      have hr : List.find? (fun q => decide (q.1 = k)) rest = none := by
        rwa [List.find?_cons_of_neg _ (by simpa using hq)] at h
      have := ih hr
      simp only [paramsGet] at this ⊢
      rw [List.cons_append, List.find?_cons_of_neg _ (by simpa using hq)]
      exact this

theorem paramsGet_paramsSet_self (k : String) (v : Value) (p : Params) :
    paramsGet (paramsSet p k v) k = some v := by
  unfold paramsSet
  by_cases h : (List.find? (fun q => decide (q.1 = k)) p).isSome
  · rw [if_pos h]
    exact paramsGet_map_set k v p h
  · rw [if_neg h]
    exact paramsGet_append_single k v p (by
      cases hf : List.find? (fun q => decide (q.1 = k)) p with
      | none => rfl
      | some q => rw [hf] at h; simp at h)

theorem paramsGet_map_set_ne (k k' : String) (v : Value) (p : Params) (h : k' ≠ k) :
    paramsGet (p.map (fun q => if q.1 = k then (k, v) else q)) k' = paramsGet p k' := by
  induction p with
  | nil => rfl
  | cons q rest ih =>
      by_cases hq : q.1 = k
      · simp only [paramsGet, List.map_cons, if_pos hq]
        rw [List.find?_cons_of_neg _ (by simpa using Ne.symm h),
            List.find?_cons_of_neg _ (by simp [hq]; exact Ne.symm (hq ▸ h))]
        exact ih
      · by_cases hq' : q.1 = k'
        · simp only [paramsGet, List.map_cons, if_neg hq]
          rw [List.find?_cons_of_pos _ (by simpa using hq'),
              List.find?_cons_of_pos _ (by simpa using hq')]
        · simp only [paramsGet, List.map_cons, if_neg hq]
          rw [List.find?_cons_of_neg _ (by simpa using hq'),
              List.find?_cons_of_neg _ (by simpa using hq')]
          exact ih

theorem paramsGet_append_single_ne (k k' : String) (v : Value) (p : Params) (h : k' ≠ k) :
    paramsGet (p ++ [(k, v)]) k' = paramsGet p k' := by
  induction p with
  | nil => simp [paramsGet, Ne.symm h]
  | cons q rest ih =>
      by_cases hq : q.1 = k'
      · simp only [paramsGet, List.cons_append]
        rw [List.find?_cons_of_pos _ (by simpa using hq),
            List.find?_cons_of_pos _ (by simpa using hq)]
      · simp only [paramsGet, List.cons_append]
        rw [List.find?_cons_of_neg _ (by simpa using hq),
            List.find?_cons_of_neg _ (by simpa using hq)]
        exact ih

theorem paramsGet_paramsSet_ne (k k' : String) (v : Value) (p : Params) (h : k' ≠ k) :
    paramsGet (paramsSet p k v) k' = paramsGet p k' := by
  unfold paramsSet
  by_cases hf : (List.find? (fun q => decide (q.1 = k)) p).isSome
  · rw [if_pos hf]
    exact paramsGet_map_set_ne k k' v p h
  · rw [if_neg hf]
    exact paramsGet_append_single_ne k k' v p h

theorem cacheGet_cacheSet_self (c : Cache) (k : CacheKey) (e : CacheEntry) :
    cacheGet (cacheSet c k e) k = some e := by
  simp [cacheGet, cacheSet]

theorem cacheGet_cacheSet_ne (c : Cache) (k k' : CacheKey) (e : CacheEntry) (h : k' ≠ k) :
    cacheGet (cacheSet c k e) k' = cacheGet c k' := by
  simp [cacheGet, cacheSet, Ne.symm h]

theorem cacheGet_cacheSet_isSome (c : Cache) (k k' : CacheKey) (e : CacheEntry)
    (h : (cacheGet c k').isSome) : (cacheGet (cacheSet c k e) k').isSome := by
  by_cases hk : k' = k
  · subst hk; simp [cacheGet_cacheSet_self]
  · rwa [cacheGet_cacheSet_ne c k k' e hk]

/-! ### Case equations for one loop iteration -/

theorem subjectStep_hit (net : Net) (root : String) (sp : Params) (ttl mi : ℤ)
    (u : String) (s : LoopSt) (cached : Json)
    (h : cacheServe s.cache (mkKey root sp u) s.t ttl = some cached) :
    subjectStep net root sp ttl mi u s = (mergeData s cached, none) := by
  unfold subjectStep
  rw [h]

theorem subjectStep_miss_exn (net : Net) (root : String) (sp : Params) (ttl mi : ℤ)
    (u : String) (s : LoopSt)
    (hm : cacheServe s.cache (mkKey root sp u) s.t ttl = none)
    (hn : net (reqFor root sp u) = .exn) :
    subjectStep net root sp ttl mi u s =
      (afterThrottle mi s (reqFor root sp u), some (.transport u)) := by
  unfold subjectStep
  rw [hm, hn]

theorem subjectStep_miss_err (net : Net) (root : String) (sp : Params) (ttl mi : ℤ)
    (u : String) (s : LoopSt) (status : ℤ) (body : Option Json)
    (hm : cacheServe s.cache (mkKey root sp u) s.t ttl = none)
    (hn : net (reqFor root sp u) = .resp status body) (hst : status ≠ 200) :
    subjectStep net root sp ttl mi u s =
      (afterThrottle mi s (reqFor root sp u), some (.http status u)) := by
  unfold subjectStep
  rw [hm, hn]
  simp [hst]

theorem subjectStep_miss_ok (net : Net) (root : String) (sp : Params) (ttl mi : ℤ)
    (u : String) (s : LoopSt) (body : Option Json)
    (hm : cacheServe s.cache (mkKey root sp u) s.t ttl = none)
    (hn : net (reqFor root sp u) = .resp 200 body) :
    subjectStep net root sp ttl mi u s =
      (mergeData
        { afterThrottle mi s (reqFor root sp u) with
            cache := cacheSet s.cache (mkKey root sp u)
              ⟨(afterThrottle mi s (reqFor root sp u)).t, body.getD (.list [])⟩ }
        (body.getD (.list [])),
       none) := by
  unfold subjectStep
  rw [hm, hn]
  simp

/-! ### The loop -/

theorem runLoop_nil (net : Net) (root : String) (sp : Params) (ttl mi : ℤ) (s : LoopSt) :
    runLoop net root sp ttl mi [] s = (s, none) := rfl

theorem runLoop_cons_ok (net : Net) (root : String) (sp : Params) (ttl mi : ℤ)
    (u : String) (rest : List String) (s s' : LoopSt)
    (h : subjectStep net root sp ttl mi u s = (s', none)) :
    runLoop net root sp ttl mi (u :: rest) s = runLoop net root sp ttl mi rest s' := by
  conv_lhs => rw [runLoop]
  rw [h]

theorem runLoop_cons_err (net : Net) (root : String) (sp : Params) (ttl mi : ℤ)
    (u : String) (rest : List String) (s s' : LoopSt) (e : FetchErr)
    (h : subjectStep net root sp ttl mi u s = (s', some e)) :
    runLoop net root sp ttl mi (u :: rest) s = (s', some e) := by
  conv_lhs => rw [runLoop]
  rw [h]

theorem runLoop_invariant (net : Net) (root : String) (sp : Params) (ttl mi : ℤ)
    (P : LoopSt → Prop)
    (hstep : ∀ u s, P s → P (subjectStep net root sp ttl mi u s).1) :
    ∀ (us : List String) (s : LoopSt), P s → P (runLoop net root sp ttl mi us s).1 := by
  intro us
  induction us with
  | nil => intro s hs; exact hs
  | cons u rest ih =>
      intro s hs
      rcases h : subjectStep net root sp ttl mi u s with ⟨s', e⟩
      have hs' : P s' := by
        have hh := hstep u s hs
        rw [h] at hh
        exact hh
      cases e with
      | none =>
          rw [runLoop_cons_ok net root sp ttl mi u rest s s' h]
          exact ih s' hs'
      | some er =>
          rw [runLoop_cons_err net root sp ttl mi u rest s s' er h]
          exact hs'

/-! ### C1: the unconfigured sentinel and the empty-subject result -/

/-- Claim C1: if the base URL or the token is unset or empty,
`fetch_gitlab_mrs` returns `(None, None)` at once, with no outbound request
and no state change; if both are configured but the raw subject string
parses to no subjects and no default subject is configured, it returns the
empty-but-valid result `([], None)` (an empty yet non-null list together
with the default-subject-or-null, which is null here), again with no
outbound request. -/
theorem fetch_sentinels (env : Env) (net : Net) (raw : String) (params : Params)
    (t0 : ℤ) (st : St) :
    ((truthy env.gitlab_api_url = false ∨ truthy env.gitlab_token = false) →
      fetch_gitlab_mrs env net raw params t0 st = ⟨.ok (none, none), st, [], []⟩) ∧
    (truthy env.gitlab_api_url = true → truthy env.gitlab_token = true →
      ((pySplitComma raw).map pyStrip).filter (fun a => a ≠ "") = [] →
      pyStrip (env.gitlab_username.getD "") = "" →
      fetch_gitlab_mrs env net raw params t0 st = ⟨.ok (some [], none), st, [], []⟩) := by
  constructor
  · intro h
    unfold fetch_gitlab_mrs
    rcases h with h | h <;> simp [h]
  · intro h1 h2 hraw hdef
    have hres : resolveAssignees raw "" = [] := by
      by_cases hr : raw = ""
      · simp [resolveAssignees, hr]
      · unfold resolveAssignees
        rw [if_pos hr]
        exact hraw
    unfold fetch_gitlab_mrs
    simp [h1, h2, hdef, hres, strOrNone]

/-- Witness for `fetch_sentinels`: a concrete unconfigured environment (no
token) yields `(None, None)`, and a configured environment with a
whitespace-only subject string and no default username yields
`([], None)`. -/
theorem fetch_sentinels_witness :
    fetch_gitlab_mrs ⟨some "https://x", none, none, none, none, none⟩
      (fun _ => .resp 200 none) "a,b" [] 0 ⟨[], none⟩ = ⟨.ok (none, none), ⟨[], none⟩, [], []⟩ ∧
    fetch_gitlab_mrs ⟨some "https://x", some "tok", none, none, none, none⟩
      (fun _ => .resp 200 none) " , " [] 0 ⟨[], none⟩ = ⟨.ok (some [], none), ⟨[], none⟩, [], []⟩ :=
  ⟨(fetch_sentinels ⟨some "https://x", none, none, none, none, none⟩
      (fun _ => .resp 200 none) "a,b" [] 0 ⟨[], none⟩).1 (by decide),
   (fetch_sentinels ⟨some "https://x", some "tok", none, none, none, none⟩
      (fun _ => .resp 200 none) " , " [] 0 ⟨[], none⟩).2
      (by decide) (by decide) (by decide) (by decide)⟩

/-! ### Shape of a configured fetch -/

theorem fetch_main (env : Env) (net : Net) (raw : String) (params : Params)
    (t0 : ℤ) (st : St)
    (h1 : truthy env.gitlab_api_url = true) (h2 : truthy env.gitlab_token = true)
    (h3 : resolveAssignees raw (pyStrip (env.gitlab_username.getD "")) ≠ []) :
    fetch_gitlab_mrs env net raw params t0 st =
      match (fetchRun env net raw params t0 st).2 with
      | some e =>
          ⟨.error e,
           ⟨(fetchRun env net raw params t0 st).1.cache,
            (fetchRun env net raw params t0 st).1.lastTs⟩,
           (fetchRun env net raw params t0 st).1.log,
           (fetchRun env net raw params t0 st).1.datas⟩
      | none =>
          ⟨.ok (some (fetchRun env net raw params t0 st).1.agg,
                strOrNone (pyStrip (env.gitlab_username.getD ""))),
           ⟨(fetchRun env net raw params t0 st).1.cache,
            (fetchRun env net raw params t0 st).1.lastTs⟩,
           (fetchRun env net raw params t0 st).1.log,
           (fetchRun env net raw params t0 st).1.datas⟩ := by
  unfold fetch_gitlab_mrs
  rw [if_neg (by simp [h1, h2]), if_neg (by simpa [List.isEmpty_iff] using h3)]

theorem fetch_log_cases (env : Env) (net : Net) (raw : String) (params : Params)
    (t0 : ℤ) (st : St) :
    (fetch_gitlab_mrs env net raw params t0 st).log = [] ∨
    (fetch_gitlab_mrs env net raw params t0 st).log =
      (fetchRun env net raw params t0 st).1.log := by
  by_cases h1 : truthy env.gitlab_api_url = true
  · by_cases h2 : truthy env.gitlab_token = true
    · by_cases h3 : resolveAssignees raw (pyStrip (env.gitlab_username.getD "")) = []
      · left
        unfold fetch_gitlab_mrs
        rw [if_neg (by simp [h1, h2]), if_pos (by simpa [List.isEmpty_iff] using h3)]
      · right
        rw [fetch_main env net raw params t0 st h1 h2 h3]
        cases (fetchRun env net raw params t0 st).2 <;> rfl
    · left
      unfold fetch_gitlab_mrs
      rw [if_pos (by simp [Bool.eq_false_iff.mpr h2])]
  · left
    unfold fetch_gitlab_mrs
    rw [if_pos (by simp [Bool.eq_false_iff.mpr h1])]

/-! ### What requests a run performs -/

theorem subjectStep_log (net : Net) (root : String) (sp : Params) (ttl mi : ℤ)
    (u : String) (s : LoopSt) :
    (subjectStep net root sp ttl mi u s).1.log = s.log ∨
    (subjectStep net root sp ttl mi u s).1.log = s.log ++ [reqFor root sp u] := by
  unfold subjectStep
  cases h : cacheServe s.cache (mkKey root sp u) s.t ttl with
  | some c => left; rfl
  | none =>
      cases hn : net (reqFor root sp u) with
      | exn => right; rfl
      | resp status body =>
          by_cases hst : status ≠ 200
          · right; simp [hst, afterThrottle]
          · right; simp [hst, afterThrottle, mergeData]

theorem runLoop_log_mem (net : Net) (root : String) (sp : Params) (ttl mi : ℤ) :
    ∀ (us : List String) (s : LoopSt) (r : Request),
      r ∈ (runLoop net root sp ttl mi us s).1.log →
      r ∈ s.log ∨ ∃ u, u ∈ us ∧ r = reqFor root sp u := by
  intro us
  induction us with
  | nil => intro s r hr; exact .inl hr
  | cons u rest ih =>
      intro s r hr
      rcases h : subjectStep net root sp ttl mi u s with ⟨s', e⟩
      have hlog : s'.log = s.log ∨ s'.log = s.log ++ [reqFor root sp u] := by
        have hh := subjectStep_log net root sp ttl mi u s
        rw [h] at hh
        exact hh
      have split : r ∈ s'.log → r ∈ s.log ∨ ∃ w, w ∈ u :: rest ∧ r = reqFor root sp w := by
        intro hin
        rcases hlog with hl | hl
        · rw [hl] at hin; exact .inl hin
        · rw [hl] at hin
          rcases List.mem_append.mp hin with hx | hx
          · exact .inl hx
          · right; exact ⟨u, List.mem_cons_self u rest, by simpa using hx⟩
      cases e with
      | none =>
          rw [runLoop_cons_ok net root sp ttl mi u rest s s' h] at hr
          rcases ih s' r hr with hin | ⟨w, hw, he⟩
          · exact split hin
          · right; exact ⟨w, List.mem_cons_of_mem u hw, he⟩
      | some er =>
          rw [runLoop_cons_err net root sp ttl mi u rest s s' er h] at hr
          exact split hr

/-! ### C4: the outbound page size is always clamped -/

/-- Claim C4: the effective page size is always between 1 and 40; it is 20
when the caller supplies none or an unparseable one; a requested 500 becomes
40; and every outbound request of any `fetch_gitlab_mrs` call carries
exactly this clamped value as its `per_page` parameter. -/
theorem perPage_clamped (params : Params) :
    (1 ≤ clampPerPage params ∧ clampPerPage params ≤ 40) ∧
    (paramsGet params "per_page" = none → clampPerPage params = 20) ∧
    (∀ v, paramsGet params "per_page" = some v → pyInt v = none →
      clampPerPage params = 20) ∧
    (paramsGet params "per_page" = some (.vInt 500) → clampPerPage params = 40) ∧
    (∀ env net raw t0 st r, r ∈ (fetch_gitlab_mrs env net raw params t0 st).log →
      paramsGet r.params "per_page" = some (.vInt (clampPerPage params))) := by
  refine ⟨?_, ?_, ?_, ?_, ?_⟩
  · unfold clampPerPage
    cases paramsGet params "per_page" with
    | none => simp
    | some v =>
        cases hv : pyInt v with
        | none => simp [hv]
        | some n =>
            simp only [hv, Option.getD_some]
            split_ifs <;> omega
  · intro h
    simp [clampPerPage, h]
  · intro v hv hp
    simp [clampPerPage, hv, hp]
  · intro h
    simp [clampPerPage, h, pyInt]
  · intro env net raw t0 st r hr
    rcases fetch_log_cases env net raw params t0 st with hl | hl
    · rw [hl] at hr; cases hr
    · rw [hl] at hr
      rcases runLoop_log_mem net (rstripSlash (env.gitlab_api_url.getD ""))
          (paramsSet params "per_page" (.vInt (clampPerPage params)))
          (readIntEnv env.gitlab_cache_ttl_seconds 30)
          (readIntEnv env.gitlab_min_interval_ms 200) _ _ r hr with hin | ⟨u, _, he⟩
      · cases hin
      · subst he
        unfold reqFor
        rw [paramsGet_paramsSet_ne "assignee_username" "per_page" (.vStr u) _ (by decide)]
        exact paramsGet_paramsSet_self "per_page" (.vInt (clampPerPage params)) params

/-- Witness for `perPage_clamped` at `per_page = 500`: the clamp yields 40,
and in a concrete configured call the outbound request carries
`per_page = 40`. -/
theorem perPage_clamped_witness :
    clampPerPage [("per_page", .vInt 500)] = 40 ∧
    paramsGet (reqFor "https://x" (paramsSet [("per_page", .vInt 500)] "per_page"
        (.vInt (clampPerPage [("per_page", .vInt 500)]))) "a").params "per_page" =
      some (.vInt (clampPerPage [("per_page", .vInt 500)])) :=
  ⟨(perPage_clamped [("per_page", .vInt 500)]).2.2.2.1 (by decide),
   (perPage_clamped [("per_page", .vInt 500)]).2.2.2.2
     ⟨some "https://x", some "tok", some "bob", none, none, none⟩
     (fun _ => .resp 200 (some (.list []))) "a" 0 ⟨[], none⟩
     (reqFor "https://x" (paramsSet [("per_page", .vInt 500)] "per_page"
        (.vInt (clampPerPage [("per_page", .vInt 500)]))) "a")
     (by decide)⟩

/-! ### C9: the fan-out cap -/

/-- Claim C9: when the parsed subject list is longer than the configured
positive maximum, only the first `max` subjects (in order) can be queried —
every outbound request is for one of them — and concretely, with subjects
`a,b,c` and a cap of 2 every upstream response present, exactly `a` and `b`
are queried, in order. -/
theorem subjects_capped (env : Env) (net : Net) (raw : String) (params : Params)
    (t0 : ℤ) (st : St) :
    (0 < readIntEnv env.gitlab_max_assignees 10 →
      ((resolveAssignees raw (pyStrip (env.gitlab_username.getD ""))).length : ℤ) >
        readIntEnv env.gitlab_max_assignees 10 →
      ∀ r, r ∈ (fetch_gitlab_mrs env net raw params t0 st).log →
        r.uname ∈ (resolveAssignees raw (pyStrip (env.gitlab_username.getD ""))).take
          (readIntEnv env.gitlab_max_assignees 10).toNat) ∧
    (fetch_gitlab_mrs ⟨some "https://x", some "tok", none, some "2", none, none⟩
        (fun _ => .resp 200 (some (.list []))) "a,b,c" [] 0 ⟨[], none⟩).log.map
      (fun r => r.uname) = ["a", "b"] := by
  constructor
  · intro hpos hlen r hr
    rcases fetch_log_cases env net raw params t0 st with hl | hl
    · rw [hl] at hr; cases hr
    · rw [hl] at hr
      rcases runLoop_log_mem net (rstripSlash (env.gitlab_api_url.getD ""))
          (paramsSet params "per_page" (.vInt (clampPerPage params)))
          (readIntEnv env.gitlab_cache_ttl_seconds 30)
          (readIntEnv env.gitlab_min_interval_ms 200) _ _ r hr with hin | ⟨u, hu, he⟩
      · cases hin
      · subst he
        have : capSubjects (readIntEnv env.gitlab_max_assignees 10)
            (resolveAssignees raw (pyStrip (env.gitlab_username.getD ""))) =
            (resolveAssignees raw (pyStrip (env.gitlab_username.getD ""))).take
              (readIntEnv env.gitlab_max_assignees 10).toNat := by
          unfold capSubjects
          rw [if_pos ⟨hpos, hlen⟩]
        rw [this] at hu
        exact hu
  · decide

/-- Witness for `subjects_capped` at a concrete capped call: with subjects
`a,b,c,d` and `GITLAB_MAX_ASSIGNEES=2`, every outbound request is for `a` or
`b`. -/
theorem subjects_capped_witness :
    (reqFor "https://x" (paramsSet [] "per_page" (.vInt (clampPerPage []))) "b").uname ∈
      (resolveAssignees "a,b,c,d" (pyStrip ((some "bob" : Option String).getD ""))).take
        (readIntEnv (some "2") 10).toNat :=
  (subjects_capped ⟨some "https://x", some "tok", some "bob", some "2", none, none⟩
      (fun _ => .resp 200 (some (.list []))) "a,b,c,d" [] 0 ⟨[], none⟩).1
    (by decide) (by decide)
    (reqFor "https://x" (paramsSet [] "per_page" (.vInt (clampPerPage []))) "b")
    (by decide)

/-! ### C7: the cache key is canonical in the parameter mapping -/

theorem charToNat_inj {a b : Char} (h : a.toNat = b.toNat) : a = b :=
  Char.ext (UInt32.toNat.inj h)

theorem charsLe_refl : ∀ a, charsLe a a = true
  | [] => rfl
  | x :: xs => by
      unfold charsLe
      rw [if_pos rfl]
      exact charsLe_refl xs

theorem charsLe_total : ∀ a b, charsLe a b = true ∨ charsLe b a = true := by
  intro a
  induction a with
  | nil => intro b; left; rfl
  | cons x xs ih =>
      intro b
      cases b with
      | nil => right; rfl
      | cons y ys =>
          by_cases hxy : x = y
          · subst hxy
            unfold charsLe
            rw [if_pos rfl, if_pos rfl]
            exact ih ys
          · have hq : x.toNat ≠ y.toNat := fun hc => hxy (charToNat_inj hc)
            unfold charsLe
            rw [if_neg hxy, if_neg (Ne.symm hxy)]
            rcases Nat.lt_or_ge x.toNat y.toNat with hlt | hge
            · left; exact decide_eq_true hlt
            · right; exact decide_eq_true (by omega)

theorem charsLe_antisymm : ∀ a b, charsLe a b = true → charsLe b a = true → a = b := by
  intro a
  induction a with
  | nil =>
      intro b _ hba
      cases b with
      | nil => rfl
      | cons y ys => simp [charsLe] at hba
  | cons x xs ih =>
      intro b hab hba
      cases b with
      | nil => simp [charsLe] at hab
      | cons y ys =>
          by_cases hxy : x = y
          · subst hxy
            unfold charsLe at hab hba
            rw [if_pos rfl] at hab hba
            rw [ih ys hab hba]
          · unfold charsLe at hab hba
            rw [if_neg hxy] at hab
            rw [if_neg (Ne.symm hxy)] at hba
            have h1 := of_decide_eq_true hab
            have h2 := of_decide_eq_true hba
            omega

theorem charsLe_trans : ∀ a b c, charsLe a b = true → charsLe b c = true →
    charsLe a c = true := by
  intro a
  induction a with
  | nil => intro b c _ _; rfl
  | cons x xs ih =>
      intro b c hab hbc
      cases b with
      | nil => simp [charsLe] at hab
      | cons y ys =>
          cases c with
          | nil => simp [charsLe] at hbc
          | cons z zs =>
              by_cases hxy : x = y
              · subst hxy
                unfold charsLe at hab
                rw [if_pos rfl] at hab
                by_cases hyz : x = z
                · subst hyz
                  unfold charsLe at hbc ⊢
                  rw [if_pos rfl] at hbc ⊢
                  exact ih ys zs hab hbc
                · unfold charsLe at hbc ⊢
                  rw [if_neg hyz] at hbc ⊢
                  exact hbc
              · unfold charsLe at hab
                rw [if_neg hxy] at hab
                have h1 := of_decide_eq_true hab
                by_cases hyz : y = z
                · subst hyz
                  unfold charsLe
                  rw [if_neg hxy]
                  exact decide_eq_true h1
                · unfold charsLe at hbc
                  rw [if_neg hyz] at hbc
                  have h2 := of_decide_eq_true hbc
                  have hxz : x ≠ z := by
                    intro hc
                    subst hc
                    omega
                  unfold charsLe
                  rw [if_neg hxz]
                  exact decide_eq_true (by omega)

theorem string_le_of_chars (a b : String) (h : charsLe a.data b.data = true)
    (h' : charsLe b.data a.data = true) : a = b := by
  cases a with
  | mk da =>
      cases b with
      | mk db =>
          have := charsLe_antisymm da db h h'
          rw [this]

instance : IsTotal (String × String) pairLe where
  total a b := by
    unfold pairLe
    by_cases h : a.1 = b.1
    · rcases charsLe_total a.2.data b.2.data with hc | hc
      · exact .inl (.inr ⟨h, hc⟩)
      · exact .inr (.inr ⟨h.symm, hc⟩)
    · rcases charsLe_total a.1.data b.1.data with hc | hc
      · exact .inl (.inl ⟨h, hc⟩)
      · exact .inr (.inl ⟨Ne.symm h, hc⟩)

instance : IsTrans (String × String) pairLe where
  trans a b c hab hbc := by
    unfold pairLe at hab hbc ⊢
    rcases hab with ⟨hne, hle⟩ | ⟨heq, hle⟩
    · rcases hbc with ⟨hne', hle'⟩ | ⟨heq', hle'⟩
      · left
        constructor
        · intro hc
          rw [← hc] at hle'
          exact hne (string_le_of_chars _ _ hle hle')
        · exact charsLe_trans _ _ _ hle hle'
      · left
        exact ⟨heq' ▸ hne, heq' ▸ hle⟩
    · rcases hbc with ⟨hne', hle'⟩ | ⟨heq', hle'⟩
      · left
        exact ⟨heq ▸ hne', heq ▸ hle'⟩
      · right
        exact ⟨heq.trans heq', charsLe_trans _ _ _ hle hle'⟩

instance : IsAntisymm (String × String) pairLe where
  antisymm a b hab hba := by
    unfold pairLe at hab hba
    rcases hab with ⟨hne, hle⟩ | ⟨heq, hle⟩
    · rcases hba with ⟨hne', hle'⟩ | ⟨heq', hle'⟩
      · exact absurd (string_le_of_chars _ _ hle hle') hne
      · exact absurd heq'.symm hne
    · rcases hba with ⟨hne', hle'⟩ | ⟨heq', hle'⟩
      · exact absurd heq (Ne.symm hne')
      · exact Prod.ext heq (string_le_of_chars _ _ hle hle')

theorem freezeParams_perm (p1 p2 : Params) (h : p1.Perm p2) :
    freezeParams p1 = freezeParams p2 := by
  unfold freezeParams
  have hm : (p1.map (fun q => (q.1, jsonDumps q.2))).Perm
      (p2.map (fun q => (q.1, jsonDumps q.2))) := h.map _
  have hp : List.Perm ((p1.map (fun q => (q.1, jsonDumps q.2))).insertionSort pairLe)
      ((p2.map (fun q => (q.1, jsonDumps q.2))).insertionSort pairLe) :=
    (List.perm_insertionSort pairLe _).trans
      (hm.trans (List.perm_insertionSort pairLe _).symm)
  exact List.eq_of_perm_of_sorted hp
    (List.sorted_insertionSort pairLe _) (List.sorted_insertionSort pairLe _)

theorem paramsSet_perm (k : String) (v : Value) {p1 p2 : Params} (h : p1.Perm p2) :
    (paramsSet p1 k v).Perm (paramsSet p2 k v) := by
  unfold paramsSet
  by_cases h1 : (List.find? (fun q => decide (q.1 = k)) p1).isSome = true
  · have h2 : (List.find? (fun q => decide (q.1 = k)) p2).isSome = true := by
      rw [List.find?_isSome] at h1 ⊢
      rcases h1 with ⟨x, hx, hpx⟩
      exact ⟨x, h.mem_iff.mp hx, hpx⟩
    rw [if_pos h1, if_pos h2]
    exact h.map _
  · have h2 : ¬ (List.find? (fun q => decide (q.1 = k)) p2).isSome = true := by
      rw [List.find?_isSome] at h1 ⊢
      intro hc
      rcases hc with ⟨x, hx, hpx⟩
      exact h1 ⟨x, h.mem_iff.mpr hx, hpx⟩
    rw [if_neg h1, if_neg h2]
    exact h.append_right _

/-- Claim C7: the frozen parameter tuple, and with it the derived cache key,
is a canonical function of the parameter mapping: any two association lists
equal as mappings (permutations of each other) freeze to the identical
sorted tuple and derive the identical cache key. -/
theorem cacheKey_canonical (root uname : String) (p1 p2 : Params) (h : p1.Perm p2) :
    freezeParams p1 = freezeParams p2 ∧ mkKey root p1 uname = mkKey root p2 uname := by
  refine ⟨freezeParams_perm p1 p2 h, ?_⟩
  unfold mkKey
  rw [freezeParams_perm _ _ (paramsSet_perm "assignee_username" (.vStr uname) h)]

/-- Witness for `cacheKey_canonical`: two insertion orders of the same
two-parameter mapping produce the same frozen tuple and the same key. -/
theorem cacheKey_canonical_witness :
    freezeParams [("state", .vStr "opened"), ("per_page", .vInt 20)] =
      freezeParams [("per_page", .vInt 20), ("state", .vStr "opened")] ∧
    mkKey "https://x" [("state", .vStr "opened"), ("per_page", .vInt 20)] "a" =
      mkKey "https://x" [("per_page", .vInt 20), ("state", .vStr "opened")] "a" :=
  cacheKey_canonical "https://x" "a"
    [("state", .vStr "opened"), ("per_page", .vInt 20)]
    [("per_page", .vInt 20), ("state", .vStr "opened")] (by decide)

/-! ### C5: a failing upstream response aborts the whole aggregate call -/

theorem subjectStep_ok_requests (net : Net) (root : String) (sp : Params)
    (ttl mi : ℤ) (u : String) (s : LoopSt)
    (h : (subjectStep net root sp ttl mi u s).2 = none) :
    ∀ r ∈ (subjectStep net root sp ttl mi u s).1.log,
      r ∈ s.log ∨ ∃ b, net r = .resp 200 b := by
  intro r hr
  cases hc : cacheServe s.cache (mkKey root sp u) s.t ttl with
  | some c =>
      rw [subjectStep_hit net root sp ttl mi u s c hc] at hr
      exact .inl hr
  | none =>
      cases hn : net (reqFor root sp u) with
      | exn =>
          rw [subjectStep_miss_exn net root sp ttl mi u s hc hn] at h
          cases h
      | resp status body =>
          by_cases hst : status ≠ 200
          · rw [subjectStep_miss_err net root sp ttl mi u s status body hc hn hst] at h
            cases h
          · push_neg at hst
            subst hst
            rw [subjectStep_miss_ok net root sp ttl mi u s body hc hn] at hr
            have hr' : r ∈ s.log ++ [reqFor root sp u] := hr
            rcases List.mem_append.mp hr' with hx | hx
            · exact .inl hx
            · right
              have heq : r = reqFor root sp u := by simpa using hx
              rw [heq, hn]
              exact ⟨body, rfl⟩

theorem runLoop_ok_requests (net : Net) (root : String) (sp : Params) (ttl mi : ℤ) :
    ∀ (us : List String) (s : LoopSt),
      (runLoop net root sp ttl mi us s).2 = none →
      ∀ r ∈ (runLoop net root sp ttl mi us s).1.log,
        r ∈ s.log ∨ ∃ b, net r = .resp 200 b := by
  intro us
  induction us with
  | nil => intro s _ r hr; exact .inl hr
  | cons u rest ih =>
      intro s hok r hr
      rcases h : subjectStep net root sp ttl mi u s with ⟨s', e⟩
      cases e with
      | none =>
          rw [runLoop_cons_ok net root sp ttl mi u rest s s' h] at hok hr
          rcases ih s' hok r hr with hin | h200
          · have hs : (subjectStep net root sp ttl mi u s).2 = none := by rw [h]
            have := subjectStep_ok_requests net root sp ttl mi u s hs r
              (by rw [h]; exact hin)
            exact this
          · exact .inr h200
      | some er =>
          rw [runLoop_cons_err net root sp ttl mi u rest s s' er h] at hok
          cases hok

/-- Claim C5: on a cache miss, a non-200 upstream status makes the iteration
raise the `RuntimeError` carrying that status code, and a transport
exception propagates as such — the two error shapes (and different status
codes, e.g. 401 versus 500) are distinguishable; consequently, whenever a
`fetch_gitlab_mrs` call returns a result at all (`ok`), every outbound
request it performed was answered 200 — a failing subject is never skipped —
and an aborted call returns an error, never a partial aggregate. -/
theorem nonSuccess_fails (net : Net) (root : String) (sp : Params) (ttl mi : ℤ)
    (u : String) (s : LoopSt) :
    (∀ status body, cacheServe s.cache (mkKey root sp u) s.t ttl = none →
      net (reqFor root sp u) = .resp status body → status ≠ 200 →
      subjectStep net root sp ttl mi u s =
        (afterThrottle mi s (reqFor root sp u), some (.http status u))) ∧
    (cacheServe s.cache (mkKey root sp u) s.t ttl = none →
      net (reqFor root sp u) = .exn →
      subjectStep net root sp ttl mi u s =
        (afterThrottle mi s (reqFor root sp u), some (.transport u))) ∧
    (∀ s1 s2 u1 u2, (FetchErr.http s1 u1 = FetchErr.http s2 u2) → s1 = s2) ∧
    (∀ status u', FetchErr.http status u' ≠ FetchErr.transport u') ∧
    (∀ env raw params t0 st res d,
      (fetch_gitlab_mrs env net raw params t0 st).result = .ok (res, d) →
      ∀ r ∈ (fetch_gitlab_mrs env net raw params t0 st).log,
        ∃ b, net r = .resp 200 b) ∧
    (∀ env raw params t0 st e res d,
      (fetch_gitlab_mrs env net raw params t0 st).result = .error e →
      (fetch_gitlab_mrs env net raw params t0 st).result ≠ .ok (res, d)) := by
  refine ⟨?_, ?_, ?_, ?_, ?_, ?_⟩
  · intro status body hm hn hst
    exact subjectStep_miss_err net root sp ttl mi u s status body hm hn hst
  · intro hm hn
    exact subjectStep_miss_exn net root sp ttl mi u s hm hn
  · intro s1 s2 u1 u2 h
    cases h
    rfl
  · intro status u' h
    cases h
  · intro env raw params t0 st res d hok r hr
    by_cases h1 : truthy env.gitlab_api_url = true
    · by_cases h2 : truthy env.gitlab_token = true
      · by_cases h3 : resolveAssignees raw (pyStrip (env.gitlab_username.getD "")) = []
        · unfold fetch_gitlab_mrs at hr
          rw [if_neg (by simp [h1, h2]),
              if_pos (by simpa [List.isEmpty_iff] using h3)] at hr
          cases hr
        · rw [fetch_main env net raw params t0 st h1 h2 h3] at hok hr
          cases hrun : (fetchRun env net raw params t0 st).2 with
          | some e => rw [hrun] at hok; cases hok
          | none =>
              rw [hrun] at hr
              simp only at hr
              have := runLoop_ok_requests net
                (rstripSlash (env.gitlab_api_url.getD ""))
                (paramsSet params "per_page" (.vInt (clampPerPage params)))
                (readIntEnv env.gitlab_cache_ttl_seconds 30)
                (readIntEnv env.gitlab_min_interval_ms 200)
                (capSubjects (readIntEnv env.gitlab_max_assignees 10)
                  (resolveAssignees raw (pyStrip (env.gitlab_username.getD ""))))
                ⟨st.cache, st.lastTs, t0, [], [], [], []⟩
                (by exact hrun) r (by exact hr)
              rcases this with hin | h200
              · cases hin
              · exact h200
      · unfold fetch_gitlab_mrs at hr
        rw [if_pos (by simp [Bool.eq_false_iff.mpr h2])] at hr
        cases hr
    · unfold fetch_gitlab_mrs at hr
      rw [if_pos (by simp [Bool.eq_false_iff.mpr h1])] at hr
      cases hr
  · intro env raw params t0 st e res d herr
    rw [herr]
    intro hc
    cases hc

/-- Witness for `nonSuccess_fails`: a concrete 401 response aborts the
iteration with the status-carrying error, and a concrete successful call's
single request was answered 200. -/
theorem nonSuccess_fails_witness :
    subjectStep (fun _ => .resp 401 none) "https://x" [] 30 0 "a"
        ⟨[], none, 0, [], [], [], []⟩ =
      (afterThrottle 0 ⟨[], none, 0, [], [], [], []⟩ (reqFor "https://x" [] "a"),
       some (.http 401 "a")) ∧
    ∃ b, (fun _ => NetResp.resp 200 (some (.list []))) (reqFor "https://x"
      (paramsSet [] "per_page" (.vInt (clampPerPage []))) "a") = .resp 200 b :=
  ⟨(nonSuccess_fails (fun _ => .resp 401 none) "https://x" [] 30 0 "a"
      ⟨[], none, 0, [], [], [], []⟩).1 401 none (by decide) rfl (by decide),
   (nonSuccess_fails (fun _ => NetResp.resp 200 (some (.list []))) "https://x"
      (paramsSet [] "per_page" (.vInt (clampPerPage []))) 30 0 "a"
      ⟨[], none, 0, [], [], [], []⟩).2.2.2.2.1
      ⟨some "https://x", some "tok", some "bob", none, none, none⟩ "a" [] 0
      ⟨[], none⟩ (some []) (some "bob") (by decide)
      (reqFor "https://x" (paramsSet [] "per_page" (.vInt (clampPerPage []))) "a")
      (by decide)⟩

/-! ### C6: a malformed response body is an empty list, not an error -/

/-- Claim C6: on a cache miss answered 200 with an unparseable body, the
iteration does not raise; the subject contributes the empty list (the
aggregate is unchanged and the recorded per-subject list is `[]`), the empty
list is stored in the cache under the subject's key, and the loop proceeds
with the remaining subjects. -/
theorem malformed_body_empty (net : Net) (root : String) (sp : Params) (ttl mi : ℤ)
    (u : String) (s : LoopSt)
    (hm : cacheServe s.cache (mkKey root sp u) s.t ttl = none)
    (hn : net (reqFor root sp u) = .resp 200 none) :
    (subjectStep net root sp ttl mi u s).2 = none ∧
    (subjectStep net root sp ttl mi u s).1.agg = s.agg ∧
    (subjectStep net root sp ttl mi u s).1.seen = s.seen ∧
    (subjectStep net root sp ttl mi u s).1.datas = s.datas ++ [[]] ∧
    cacheGet (subjectStep net root sp ttl mi u s).1.cache (mkKey root sp u) =
      some ⟨(subjectStep net root sp ttl mi u s).1.t, .list []⟩ ∧
    (∀ rest, runLoop net root sp ttl mi (u :: rest) s =
      runLoop net root sp ttl mi rest (subjectStep net root sp ttl mi u s).1) := by
  have hstep := subjectStep_miss_ok net root sp ttl mi u s none hm hn
  rw [hstep]
  refine ⟨rfl, rfl, rfl, rfl, ?_, ?_⟩
  · simp only [mergeData, afterThrottle, Option.getD_none]
    exact cacheGet_cacheSet_self _ _ _
  · intro rest
    exact runLoop_cons_ok net root sp ttl mi u rest s _ hstep

/-- Witness for `malformed_body_empty` at a concrete miss with a malformed
body. -/
theorem malformed_body_empty_witness :
    (subjectStep (fun _ => .resp 200 none) "https://x" [] 30 0 "a"
        ⟨[], none, 0, [⟨some 7, 1⟩], [7], [], [[⟨some 7, 1⟩]]⟩).2 = none ∧
    (subjectStep (fun _ => .resp 200 none) "https://x" [] 30 0 "a"
        ⟨[], none, 0, [⟨some 7, 1⟩], [7], [], [[⟨some 7, 1⟩]]⟩).1.agg = [⟨some 7, 1⟩] :=
  have h := malformed_body_empty (fun _ => .resp 200 none) "https://x" [] 30 0 "a"
    ⟨[], none, 0, [⟨some 7, 1⟩], [7], [], [[⟨some 7, 1⟩]]⟩ (by decide) rfl
  ⟨h.1, h.2.1⟩

/-! ### C3: the aggregate is the first-occurrence dedup of the concatenation -/

theorem dedupAppend_append (l1 l2 : List MR) : ∀ (seen : List ℤ) (agg : List MR),
    dedupAppend seen agg (l1 ++ l2) =
      dedupAppend (dedupAppend seen agg l1).1 (dedupAppend seen agg l1).2 l2 := by
  induction l1 with
  | nil => intro seen agg; rfl
  | cons mr rest ih =>
      intro seen agg
      cases hid : mr.id with
      | some i =>
          by_cases hin : i ∈ seen
          · simp only [List.cons_append, dedupAppend, hid, if_pos hin]
            exact ih seen agg
          · simp only [List.cons_append, dedupAppend, hid, if_neg hin]
            exact ih (i :: seen) (agg ++ [mr])
      | none =>
          simp only [List.cons_append, dedupAppend, hid]
          exact ih seen (agg ++ [mr])

theorem mergeData_dedup (s : LoopSt) (j : Json)
    (hP : (s.seen, s.agg) = dedupAppend [] [] s.datas.join) :
    ((mergeData s j).seen, (mergeData s j).agg) =
      dedupAppend [] [] (mergeData s j).datas.join := by
  simp only [mergeData]
  have hj : (s.datas ++ [contributed j]).join = s.datas.join ++ contributed j := by
    simp
  rw [hj, dedupAppend_append, ← hP]

theorem runLoop_dedup (net : Net) (root : String) (sp : Params) (ttl mi : ℤ)
    (us : List String) (s : LoopSt)
    (hP : (s.seen, s.agg) = dedupAppend [] [] s.datas.join) :
    ((runLoop net root sp ttl mi us s).1.seen, (runLoop net root sp ttl mi us s).1.agg) =
      dedupAppend [] [] (runLoop net root sp ttl mi us s).1.datas.join := by
  refine runLoop_invariant net root sp ttl mi
    (fun s => (s.seen, s.agg) = dedupAppend [] [] s.datas.join) ?_ us s hP
  intro u s hs
  cases hc : cacheServe s.cache (mkKey root sp u) s.t ttl with
  | some c =>
      rw [subjectStep_hit net root sp ttl mi u s c hc]
      exact mergeData_dedup s c hs
  | none =>
      cases hn : net (reqFor root sp u) with
      | exn =>
          rw [subjectStep_miss_exn net root sp ttl mi u s hc hn]
          exact hs
      | resp status body =>
          by_cases hst : status ≠ 200
          · rw [subjectStep_miss_err net root sp ttl mi u s status body hc hn hst]
            exact hs
          · push_neg at hst
            subst hst
            rw [subjectStep_miss_ok net root sp ttl mi u s body hc hn]
            exact mergeData_dedup _ (body.getD (.list [])) hs

theorem dedupAppend_sublist : ∀ (l : List MR) (seen : List ℤ) (agg : List MR),
    ∃ l', (dedupAppend seen agg l).2 = agg ++ l' ∧ l'.Sublist l := by
  intro l
  induction l with
  | nil => intro seen agg; exact ⟨[], by simp [dedupAppend], List.Sublist.refl []⟩
  | cons mr rest ih =>
      intro seen agg
      cases hid : mr.id with
      | some i =>
          by_cases hin : i ∈ seen
          · simp only [dedupAppend, hid, if_pos hin]
            rcases ih seen agg with ⟨l', hl, hs⟩
            exact ⟨l', hl, hs.cons mr⟩
          · simp only [dedupAppend, hid, if_neg hin]
            rcases ih (i :: seen) (agg ++ [mr]) with ⟨l', hl, hs⟩
            exact ⟨mr :: l', by rw [hl]; simp, hs.cons₂ mr⟩
      | none =>
          simp only [dedupAppend, hid]
          rcases ih seen (agg ++ [mr]) with ⟨l', hl, hs⟩
          exact ⟨mr :: l', by rw [hl]; simp, hs.cons₂ mr⟩

theorem dedupAppend_nodup : ∀ (l : List MR) (seen : List ℤ) (agg : List MR),
    (agg.filterMap MR.id).Nodup → (∀ i, i ∈ agg.filterMap MR.id → i ∈ seen) →
    (((dedupAppend seen agg l).2).filterMap MR.id).Nodup := by
  intro l
  induction l with
  | nil => intro seen agg hnd _; exact hnd
  | cons mr rest ih =>
      intro seen agg hnd hsub
      cases hid : mr.id with
      | some i =>
          by_cases hin : i ∈ seen
          · simp only [dedupAppend, hid, if_pos hin]
            exact ih seen agg hnd hsub
          · simp only [dedupAppend, hid, if_neg hin]
            refine ih (i :: seen) (agg ++ [mr]) ?_ ?_
            · rw [List.filterMap_append]
              simp only [List.filterMap_cons, hid, List.filterMap_nil]
              refine List.Nodup.append hnd (by simp) ?_
              intro j hj hj'
              simp only [List.mem_singleton] at hj'
              exact hin (hj' ▸ hsub j hj)
            · intro j hj
              rw [List.filterMap_append] at hj
              rcases List.mem_append.mp hj with hj | hj
              · exact List.mem_cons_of_mem i (hsub j hj)
              · simp only [List.filterMap_cons, hid, List.filterMap_nil] at hj
                simp only [List.mem_singleton] at hj
                exact hj ▸ List.mem_cons_self _ _
      | none =>
          simp only [dedupAppend, hid]
          refine ih seen (agg ++ [mr]) ?_ ?_
          · rw [List.filterMap_append]
            simpa [List.filterMap_cons, hid] using hnd
          · intro j hj
            rw [List.filterMap_append] at hj
            rcases List.mem_append.mp hj with hj | hj
            · exact hsub j hj
            · simp [List.filterMap_cons, hid] at hj

theorem dedupAppend_countNone : ∀ (l : List MR) (seen : List ℤ) (agg : List MR),
    ((dedupAppend seen agg l).2).countP (fun mr => mr.id.isNone) =
      agg.countP (fun mr => mr.id.isNone) + l.countP (fun mr => mr.id.isNone) := by
  intro l
  induction l with
  | nil => intro seen agg; simp [dedupAppend]
  | cons mr rest ih =>
      intro seen agg
      cases hid : mr.id with
      | some i =>
          by_cases hin : i ∈ seen
          · simp only [dedupAppend, hid, if_pos hin]
            rw [ih seen agg]
            simp [List.countP_cons, hid]
          · simp only [dedupAppend, hid, if_neg hin]
            rw [ih (i :: seen) (agg ++ [mr])]
            simp [List.countP_append, List.countP_cons, hid]
      | none =>
          simp only [dedupAppend, hid]
          rw [ih seen (agg ++ [mr])]
          simp [List.countP_append, List.countP_cons, hid]
          omega

theorem dedupAppend_prefix_mem (l : List MR) (seen : List ℤ) (agg : List MR)
    (i : ℤ) (h : i ∈ agg.filterMap MR.id) :
    i ∈ ((dedupAppend seen agg l).2).filterMap MR.id := by
  rcases dedupAppend_sublist l seen agg with ⟨l2, hl, _⟩
  rw [hl, List.filterMap_append]
  exact List.mem_append.mpr (.inl h)

theorem dedupAppend_ids_complete : ∀ (l : List MR) (seen : List ℤ) (agg : List MR)
    (i : ℤ), i ∈ l.filterMap MR.id → i ∉ seen →
    i ∈ ((dedupAppend seen agg l).2).filterMap MR.id := by
  intro l
  induction l with
  | nil => intro seen agg i h _; simp at h
  | cons mr rest ih =>
      intro seen agg i h hns
      cases hid : mr.id with
      | some j =>
          rw [List.filterMap_cons, hid] at h
          rcases List.mem_cons.mp h with heq | hmem
          · subst heq
            by_cases hin : i ∈ seen
            · exact absurd hin hns
            · simp only [dedupAppend, hid, if_neg hin]
              refine dedupAppend_prefix_mem rest (i :: seen) (agg ++ [mr]) i ?_
              rw [List.filterMap_append, List.filterMap_cons, hid]
              simp
          · by_cases hin : j ∈ seen
            · simp only [dedupAppend, hid, if_pos hin]
              exact ih seen agg i hmem hns
            · simp only [dedupAppend, hid, if_neg hin]
              by_cases hij : i = j
              · subst hij
                refine dedupAppend_prefix_mem rest (i :: seen) (agg ++ [mr]) i ?_
                rw [List.filterMap_append, List.filterMap_cons, hid]
                simp
              · refine ih (j :: seen) (agg ++ [mr]) i hmem ?_
                intro hc
                rcases List.mem_cons.mp hc with hc | hc
                · exact hij hc
                · exact hns hc
      | none =>
          rw [List.filterMap_cons, hid] at h
          simp only [dedupAppend, hid]
          exact ih seen (agg ++ [mr]) i h hns

/-- Claim C3: whenever a `fetch_gitlab_mrs` call returns a list, that list
is exactly the first-occurrence dedup (`dedupAppend` from empty accumulators)
of the concatenation, in subject order, of the per-subject result lists; and
that dedup (i) is an order-preserving subsequence of the concatenation,
(ii) repeats no int identity, (iii) keeps every record lacking a usable
identity (their count is preserved), and (iv) keeps every identity that
occurs in the input. -/
theorem aggregate_dedup (env : Env) (net : Net) (raw : String) (params : Params)
    (t0 : ℤ) (st : St) :
    (∀ agg d, (fetch_gitlab_mrs env net raw params t0 st).result = .ok (some agg, d) →
      agg = (dedupAppend [] []
        ((fetch_gitlab_mrs env net raw params t0 st).datas.join)).2) ∧
    (∀ l : List MR, ∃ l', (dedupAppend [] [] l).2 = l' ∧ l'.Sublist l) ∧
    (∀ l : List MR, (((dedupAppend [] [] l).2).filterMap MR.id).Nodup) ∧
    (∀ l : List MR, ((dedupAppend [] [] l).2).countP (fun mr => mr.id.isNone) =
      l.countP (fun mr => mr.id.isNone)) ∧
    (∀ (l : List MR) (i : ℤ), i ∈ ((dedupAppend [] [] l).2).filterMap MR.id ↔
      i ∈ l.filterMap MR.id) := by
  refine ⟨?_, ?_, ?_, ?_, ?_⟩
  · intro agg d hok
    by_cases h1 : truthy env.gitlab_api_url = true
    · by_cases h2 : truthy env.gitlab_token = true
      · by_cases h3 : resolveAssignees raw (pyStrip (env.gitlab_username.getD "")) = []
        · unfold fetch_gitlab_mrs at hok ⊢
          rw [if_neg (by simp [h1, h2]),
              if_pos (by simpa [List.isEmpty_iff] using h3)] at hok ⊢
          injection hok with hok
          injection hok with hok _
          injection hok with hok
          simp [← hok, dedupAppend]
        · rw [fetch_main env net raw params t0 st h1 h2 h3] at hok ⊢
          cases hrun : (fetchRun env net raw params t0 st).2 with
          | some e =>
              rw [hrun] at hok
              dsimp only at hok
              cases hok
          | none =>
              rw [hrun] at hok
              dsimp only at hok
              injection hok with hok
              injection hok with hok _
              injection hok with hok
              have := runLoop_dedup net (rstripSlash (env.gitlab_api_url.getD ""))
                (paramsSet params "per_page" (.vInt (clampPerPage params)))
                (readIntEnv env.gitlab_cache_ttl_seconds 30)
                (readIntEnv env.gitlab_min_interval_ms 200)
                (capSubjects (readIntEnv env.gitlab_max_assignees 10)
                  (resolveAssignees raw (pyStrip (env.gitlab_username.getD ""))))
                ⟨st.cache, st.lastTs, t0, [], [], [], []⟩ rfl
              rw [← hok]
              have h2' := congrArg Prod.snd this
              exact h2'
      · unfold fetch_gitlab_mrs at hok
        rw [if_pos (by simp [Bool.eq_false_iff.mpr h2])] at hok
        injection hok with hok
        injection hok with hok _
        cases hok
    · unfold fetch_gitlab_mrs at hok
      rw [if_pos (by simp [Bool.eq_false_iff.mpr h1])] at hok
      injection hok with hok
      injection hok with hok _
      cases hok
  · intro l
    exact dedupAppend_sublist l [] []
  · intro l
    exact dedupAppend_nodup l [] [] (by simp) (by simp)
  · intro l
    simpa using dedupAppend_countNone l [] []
  · intro l i
    constructor
    · intro h
      rcases dedupAppend_sublist l [] [] with ⟨l2, hl, hs⟩
      rw [hl] at h
      simp only [List.nil_append] at h
      exact (hs.filterMap MR.id).subset h
    · intro h
      exact dedupAppend_ids_complete l [] [] i h (by simp)

/-- Witness for `aggregate_dedup` at a concrete two-subject call with a
cross-subject duplicate identity and an identity-less record. -/
theorem aggregate_dedup_witness :
    [MR.mk (some 1) 0, MR.mk none 5, MR.mk (some 2) 2] =
      (dedupAppend [] []
        ((fetch_gitlab_mrs ⟨some "https://x", some "tok", none, none, none, none⟩
          (fun r => if r.uname = "a"
            then .resp 200 (some (.list [⟨some 1, 0⟩, ⟨none, 5⟩]))
            else .resp 200 (some (.list [⟨some 1, 9⟩, ⟨some 2, 2⟩])))
          "a,b" [] 0 ⟨[], none⟩).datas.join)).2 :=
  (aggregate_dedup ⟨some "https://x", some "tok", none, none, none, none⟩
    (fun r => if r.uname = "a"
      then .resp 200 (some (.list [⟨some 1, 0⟩, ⟨none, 5⟩]))
      else .resp 200 (some (.list [⟨some 1, 9⟩, ⟨some 2, 2⟩])))
    "a,b" [] 0 ⟨[], none⟩).1
    [MR.mk (some 1) 0, MR.mk none 5, MR.mk (some 2) 2] none (by decide)

/-! ### Cache freshness machinery for C2 and C10 -/

theorem throttle_sleep_nonneg (m now : ℤ) (lastTs : Option ℤ) :
    0 ≤ (_throttle m now lastTs).1 := by
  by_cases hm : m ≤ 0
  · simp [_throttle, hm]
  · cases lastTs with
    | none => simp [_throttle, hm]
    | some last =>
        by_cases he : now - last < m * 1000
        · simp [_throttle, hm, he]
          omega
        · simp [_throttle, hm, he]

theorem cacheServe_of_get (c : Cache) (k : CacheKey) (now ttl : ℤ) (e : CacheEntry)
    (h : cacheGet c k = some e) (hf : now - e.ts ≤ ttl * 1000000) :
    cacheServe c k now ttl = some e.data := by
  unfold cacheServe
  rw [h]
  dsimp only
  rw [if_pos hf]

theorem cacheServe_none_of_stale (c : Cache) (k : CacheKey) (now ttl : ℤ) (e : CacheEntry)
    (h : cacheGet c k = some e) (hf : ¬ now - e.ts ≤ ttl * 1000000) :
    cacheServe c k now ttl = none := by
  unfold cacheServe
  rw [h]
  dsimp only
  rw [if_neg hf]

theorem cacheServe_none_of_absent (c : Cache) (k : CacheKey) (now ttl : ℤ)
    (h : cacheGet c k = none) : cacheServe c k now ttl = none := by
  unfold cacheServe
  rw [h]

theorem cacheServe_inv (c : Cache) (k : CacheKey) (now ttl : ℤ) (d : Json)
    (h : cacheServe c k now ttl = some d) :
    ∃ e, cacheGet c k = some e ∧ now - e.ts ≤ ttl * 1000000 ∧ d = e.data := by
  unfold cacheServe at h
  cases hg : cacheGet c k with
  | none => rw [hg] at h; cases h
  | some e =>
      rw [hg] at h
      dsimp only at h
      by_cases hf : now - e.ts ≤ ttl * 1000000
      · rw [if_pos hf] at h
        injection h with h
        exact ⟨e, rfl, hf, h.symm⟩
      · rw [if_neg hf] at h
        cases h

theorem cacheGet_cacheSet_cases (c : Cache) (k k' : CacheKey) (e e' : CacheEntry)
    (h : cacheGet (cacheSet c k e) k' = some e') :
    (k' = k ∧ e' = e) ∨ cacheGet c k' = some e' := by
  by_cases hk : k' = k
  · subst hk
    rw [cacheGet_cacheSet_self] at h
    injection h with h
    exact .inl ⟨rfl, h.symm⟩
  · rw [cacheGet_cacheSet_ne c k k' e hk] at h
    exact .inr h

/-- All cache entries were written at or after instant `t1`, and the clock
has not gone back before `t1`. -/
def FreshFrom (t1 : ℤ) (s : LoopSt) : Prop :=
  (∀ k e, cacheGet s.cache k = some e → t1 ≤ e.ts) ∧ t1 ≤ s.t

theorem subjectStep_fresh (net : Net) (root : String) (sp : Params) (ttl mi : ℤ)
    (u : String) (t1 : ℤ) (s : LoopSt) (h : FreshFrom t1 s) :
    FreshFrom t1 (subjectStep net root sp ttl mi u s).1 := by
  obtain ⟨hc, ht⟩ := h
  have hsl : 0 ≤ (_throttle mi s.t s.lastTs).1 := throttle_sleep_nonneg mi s.t s.lastTs
  cases hcs : cacheServe s.cache (mkKey root sp u) s.t ttl with
  | some c =>
      rw [subjectStep_hit net root sp ttl mi u s c hcs]
      exact ⟨hc, ht⟩
  | none =>
      cases hn : net (reqFor root sp u) with
      | exn =>
          rw [subjectStep_miss_exn net root sp ttl mi u s hcs hn]
          refine ⟨hc, ?_⟩
          show t1 ≤ s.t + (_throttle mi s.t s.lastTs).1
          omega
      | resp status body =>
          by_cases hst : status ≠ 200
          · rw [subjectStep_miss_err net root sp ttl mi u s status body hcs hn hst]
            refine ⟨hc, ?_⟩
            show t1 ≤ s.t + (_throttle mi s.t s.lastTs).1
            omega
          · push_neg at hst
            subst hst
            rw [subjectStep_miss_ok net root sp ttl mi u s body hcs hn]
            constructor
            · intro k e he
              rcases cacheGet_cacheSet_cases s.cache (mkKey root sp u) k _ e he with
                ⟨hk, hee⟩ | hold
              · rw [hee]
                show t1 ≤ s.t + (_throttle mi s.t s.lastTs).1
                omega
              · exact hc k e hold
            · show t1 ≤ s.t + (_throttle mi s.t s.lastTs).1
              omega

theorem subjectStep_keeps_key (net : Net) (root : String) (sp : Params) (ttl mi : ℤ)
    (u : String) (s : LoopSt) (k : CacheKey) (h : (cacheGet s.cache k).isSome) :
    (cacheGet (subjectStep net root sp ttl mi u s).1.cache k).isSome := by
  cases hcs : cacheServe s.cache (mkKey root sp u) s.t ttl with
  | some c =>
      rw [subjectStep_hit net root sp ttl mi u s c hcs]
      exact h
  | none =>
      cases hn : net (reqFor root sp u) with
      | exn =>
          rw [subjectStep_miss_exn net root sp ttl mi u s hcs hn]
          exact h
      | resp status body =>
          by_cases hst : status ≠ 200
          · rw [subjectStep_miss_err net root sp ttl mi u s status body hcs hn hst]
            exact h
          · push_neg at hst
            subst hst
            rw [subjectStep_miss_ok net root sp ttl mi u s body hcs hn]
            exact cacheGet_cacheSet_isSome s.cache (mkKey root sp u) k _ h

theorem subjectStep_ensures_key (net : Net) (root : String) (sp : Params) (ttl mi : ℤ)
    (u : String) (s : LoopSt) (h : (subjectStep net root sp ttl mi u s).2 = none) :
    (cacheGet (subjectStep net root sp ttl mi u s).1.cache (mkKey root sp u)).isSome := by
  cases hcs : cacheServe s.cache (mkKey root sp u) s.t ttl with
  | some c =>
      rw [subjectStep_hit net root sp ttl mi u s c hcs]
      rcases cacheServe_inv s.cache (mkKey root sp u) s.t ttl c hcs with ⟨e, hg, _, _⟩
      show (cacheGet s.cache (mkKey root sp u)).isSome
      rw [hg]
      rfl
  | none =>
      cases hn : net (reqFor root sp u) with
      | exn =>
          rw [subjectStep_miss_exn net root sp ttl mi u s hcs hn] at h
          cases h
      | resp status body =>
          by_cases hst : status ≠ 200
          · rw [subjectStep_miss_err net root sp ttl mi u s status body hcs hn hst] at h
            cases h
          · push_neg at hst
            subst hst
            rw [subjectStep_miss_ok net root sp ttl mi u s body hcs hn]
            show (cacheGet (cacheSet s.cache (mkKey root sp u) _) (mkKey root sp u)).isSome
            rw [cacheGet_cacheSet_self]
            rfl

theorem runLoop_fresh (net : Net) (root : String) (sp : Params) (ttl mi t1 : ℤ)
    (us : List String) (s : LoopSt) (h : FreshFrom t1 s) :
    FreshFrom t1 (runLoop net root sp ttl mi us s).1 :=
  runLoop_invariant net root sp ttl mi (FreshFrom t1)
    (fun u s hs => subjectStep_fresh net root sp ttl mi u t1 s hs) us s h

theorem runLoop_keys (net : Net) (root : String) (sp : Params) (ttl mi : ℤ) :
    ∀ (us : List String) (s : LoopSt),
      (runLoop net root sp ttl mi us s).2 = none →
      ∀ u ∈ us, (cacheGet (runLoop net root sp ttl mi us s).1.cache
        (mkKey root sp u)).isSome := by
  intro us
  induction us with
  | nil => intro s _ u hu; cases hu
  | cons w rest ih =>
      intro s hok u hu
      rcases h : subjectStep net root sp ttl mi w s with ⟨s', e⟩
      cases e with
      | some er =>
          rw [runLoop_cons_err net root sp ttl mi w rest s s' er h] at hok
          cases hok
      | none =>
          rw [runLoop_cons_ok net root sp ttl mi w rest s s' h] at hok ⊢
          rcases List.mem_cons.mp hu with heq | hu'
          · subst heq
            have hk : (cacheGet s'.cache (mkKey root sp u)).isSome := by
              have hh := subjectStep_ensures_key net root sp ttl mi u s (by rw [h])
              rw [h] at hh
              exact hh
            exact runLoop_invariant net root sp ttl mi
              (fun st => (cacheGet st.cache (mkKey root sp u)).isSome)
              (fun v st hst => subjectStep_keeps_key net root sp ttl mi v st _ hst)
              rest s' hk
          · exact ih s' hok u hu'

theorem runLoop_all_hits (net : Net) (root : String) (sp : Params) (ttl mi : ℤ) :
    ∀ (us : List String) (s : LoopSt),
      (∀ u ∈ us, ∃ d, cacheServe s.cache (mkKey root sp u) s.t ttl = some d) →
      (runLoop net root sp ttl mi us s).1.log = s.log ∧
      (runLoop net root sp ttl mi us s).1.cache = s.cache ∧
      (runLoop net root sp ttl mi us s).1.t = s.t ∧
      (runLoop net root sp ttl mi us s).1.lastTs = s.lastTs ∧
      (runLoop net root sp ttl mi us s).2 = none := by
  intro us
  induction us with
  | nil => intro s _; exact ⟨rfl, rfl, rfl, rfl, rfl⟩
  | cons u rest ih =>
      intro s hall
      rcases hall u (List.mem_cons_self u rest) with ⟨d, hd⟩
      have hstep := subjectStep_hit net root sp ttl mi u s d hd
      rw [runLoop_cons_ok net root sp ttl mi u rest s _ hstep]
      refine ih (mergeData s d) ?_
      intro w hw
      rcases hall w (List.mem_cons_of_mem u hw) with ⟨d', hd'⟩
      exact ⟨d', hd'⟩

/-! ### C10: a 200 fetch stores the parsed result before the next subject -/

/-- Claim C10: after a cache-miss upstream fetch answered 200, the cache
maps the derived key to the parsed result — the empty list when the body was
malformed — stamped with the (not earlier) current instant, before the next
subject is processed and without raising; and a later lookup of that key
within the TTL is served exactly the stored value, contributing it to the
aggregate with no outbound request. -/
theorem store_and_serve (net : Net) (root : String) (sp : Params) (ttl mi : ℤ)
    (u : String) :
    (∀ (s : LoopSt) (body : Option Json),
      cacheServe s.cache (mkKey root sp u) s.t ttl = none →
      net (reqFor root sp u) = .resp 200 body →
      (subjectStep net root sp ttl mi u s).2 = none ∧
      s.t ≤ (subjectStep net root sp ttl mi u s).1.t ∧
      cacheGet (subjectStep net root sp ttl mi u s).1.cache (mkKey root sp u) =
        some ⟨(subjectStep net root sp ttl mi u s).1.t, body.getD (.list [])⟩) ∧
    (∀ (s : LoopSt) (ts : ℤ) (data : Json),
      cacheGet s.cache (mkKey root sp u) = some ⟨ts, data⟩ →
      s.t - ts ≤ ttl * 1000000 →
      (runLoop net root sp ttl mi [u] s).2 = none ∧
      (runLoop net root sp ttl mi [u] s).1.log = s.log ∧
      (runLoop net root sp ttl mi [u] s).1.agg =
        (dedupAppend s.seen s.agg (contributed data)).2 ∧
      (runLoop net root sp ttl mi [u] s).1.datas = s.datas ++ [contributed data]) := by
  constructor
  · intro s body hm hn
    rw [subjectStep_miss_ok net root sp ttl mi u s body hm hn]
    refine ⟨rfl, ?_, ?_⟩
    · show s.t ≤ s.t + (_throttle mi s.t s.lastTs).1
      have := throttle_sleep_nonneg mi s.t s.lastTs
      omega
    · exact cacheGet_cacheSet_self s.cache (mkKey root sp u) _
  · intro s ts data hg hf
    have hserve : cacheServe s.cache (mkKey root sp u) s.t ttl = some data :=
      cacheServe_of_get s.cache (mkKey root sp u) s.t ttl ⟨ts, data⟩ hg hf
    have hstep := subjectStep_hit net root sp ttl mi u s data hserve
    rw [runLoop_cons_ok net root sp ttl mi u [] s _ hstep]
    exact ⟨rfl, rfl, rfl, rfl⟩

/-- Witness for `store_and_serve`: a malformed-bodied 200 response stores the
empty list under the key at the fetch instant, and five seconds later (TTL
30 s) a single-subject run is served from that entry with no outbound
request. -/
theorem store_and_serve_witness :
    cacheGet (subjectStep (fun _ => .resp 200 none) "https://x" [] 30 0 "a"
        ⟨[], none, 0, [], [], [], []⟩).1.cache (mkKey "https://x" [] "a") =
      some ⟨(subjectStep (fun _ => .resp 200 none) "https://x" [] 30 0 "a"
        ⟨[], none, 0, [], [], [], []⟩).1.t, .list []⟩ ∧
    (runLoop (fun _ => .resp 200 none) "https://x" [] 30 0 ["a"]
      ⟨[(mkKey "https://x" [] "a", ⟨0, .list []⟩)], none, 5000000, [], [], [], []⟩).1.log
      = [] :=
  ⟨((store_and_serve (fun _ => .resp 200 none) "https://x" [] 30 0 "a").1
      ⟨[], none, 0, [], [], [], []⟩ none (by decide) rfl).2.2,
   ((store_and_serve (fun _ => .resp 200 none) "https://x" [] 30 0 "a").2
      ⟨[(mkKey "https://x" [] "a", ⟨0, .list []⟩)], none, 5000000, [], [], [], []⟩
      0 (.list []) (by decide) (by decide)).2.1⟩

/-! ### C2: an entry serves a lookup iff present and fresh; a repeat call
within the TTL performs no upstream requests -/

/-- Claim C2: a cache entry satisfies a lookup exactly when it exists and
`now - ts ≤ TTL` (in microseconds, `≤ TTL·10⁶`): an absent key misses, a
fresh entry is served, a stale entry misses; a served iteration performs no
outbound request while a missing one performs exactly one; and a second
aggregate call for the same subjects and query, made from an initially empty
cache no later than TTL after a first call that returned a result, performs
zero upstream requests. -/
theorem cache_ttl_iff (net : Net) (root : String) (sp : Params) (ttl mi : ℤ)
    (u : String) :
    (∀ (c : Cache) (k : CacheKey) (now : ℤ),
      (cacheGet c k = none → cacheServe c k now ttl = none) ∧
      (∀ e, cacheGet c k = some e → now - e.ts ≤ ttl * 1000000 →
        cacheServe c k now ttl = some e.data) ∧
      (∀ e, cacheGet c k = some e → ¬ now - e.ts ≤ ttl * 1000000 →
        cacheServe c k now ttl = none)) ∧
    (∀ (s : LoopSt) (cached : Json),
      cacheServe s.cache (mkKey root sp u) s.t ttl = some cached →
      (subjectStep net root sp ttl mi u s).1.log = s.log) ∧
    (∀ s : LoopSt, cacheServe s.cache (mkKey root sp u) s.t ttl = none →
      (subjectStep net root sp ttl mi u s).1.log = s.log ++ [reqFor root sp u]) ∧
    (∀ (env : Env) (raw : String) (params : Params) (t1 t2 : ℤ)
        (lastTs0 : Option ℤ) (res : Option (List MR)) (d : Option String),
      (fetch_gitlab_mrs env net raw params t1 ⟨[], lastTs0⟩).result = .ok (res, d) →
      t1 ≤ t2 →
      t2 - t1 ≤ (readIntEnv env.gitlab_cache_ttl_seconds 30) * 1000000 →
      (fetch_gitlab_mrs env net raw params t2
        (fetch_gitlab_mrs env net raw params t1 ⟨[], lastTs0⟩).st).log = []) := by
  refine ⟨?_, ?_, ?_, ?_⟩
  · intro c k now
    exact ⟨cacheServe_none_of_absent c k now ttl,
           fun e he hf => cacheServe_of_get c k now ttl e he hf,
           fun e he hf => cacheServe_none_of_stale c k now ttl e he hf⟩
  · intro s cached h
    rw [subjectStep_hit net root sp ttl mi u s cached h]
    rfl
  · intro s h
    cases hn : net (reqFor root sp u) with
    | exn =>
        rw [subjectStep_miss_exn net root sp ttl mi u s h hn]
        rfl
    | resp status body =>
        by_cases hst : status ≠ 200
        · rw [subjectStep_miss_err net root sp ttl mi u s status body h hn hst]
          rfl
        · push_neg at hst
          subst hst
          rw [subjectStep_miss_ok net root sp ttl mi u s body h hn]
          rfl
  · intro env raw params t1 t2 lastTs0 res d hok h12 httl
    by_cases h1 : truthy env.gitlab_api_url = true
    · by_cases h2 : truthy env.gitlab_token = true
      · by_cases h3 : resolveAssignees raw (pyStrip (env.gitlab_username.getD "")) = []
        · have hfe : ∀ (t : ℤ) (st : St), fetch_gitlab_mrs env net raw params t st =
              ⟨.ok (some [], strOrNone (pyStrip (env.gitlab_username.getD ""))),
               st, [], []⟩ := by
            intro t st
            unfold fetch_gitlab_mrs
            rw [if_neg (by simp [h1, h2]),
                if_pos (by simpa [List.isEmpty_iff] using h3)]
          rw [hfe t1 ⟨[], lastTs0⟩, hfe t2 _]
        · have hst1 : (fetch_gitlab_mrs env net raw params t1 ⟨[], lastTs0⟩).st =
              ⟨(fetchRun env net raw params t1 ⟨[], lastTs0⟩).1.cache,
               (fetchRun env net raw params t1 ⟨[], lastTs0⟩).1.lastTs⟩ := by
            rw [fetch_main env net raw params t1 ⟨[], lastTs0⟩ h1 h2 h3]
            cases hr : (fetchRun env net raw params t1 ⟨[], lastTs0⟩).2 <;> rfl
          have hrun1 : (fetchRun env net raw params t1 ⟨[], lastTs0⟩).2 = none := by
            rw [fetch_main env net raw params t1 ⟨[], lastTs0⟩ h1 h2 h3] at hok
            cases hr : (fetchRun env net raw params t1 ⟨[], lastTs0⟩).2 with
            | some e =>
                rw [hr] at hok
                dsimp only at hok
                cases hok
            | none => rfl
          have hfresh : FreshFrom t1 (fetchRun env net raw params t1 ⟨[], lastTs0⟩).1 := by
            refine runLoop_fresh net _ _ _ _ t1 _ _ ?_
            constructor
            · intro k e he
              simp [cacheGet] at he
            · exact le_refl t1
          have hkeys := runLoop_keys net
            (rstripSlash (env.gitlab_api_url.getD ""))
            (paramsSet params "per_page" (.vInt (clampPerPage params)))
            (readIntEnv env.gitlab_cache_ttl_seconds 30)
            (readIntEnv env.gitlab_min_interval_ms 200)
            (capSubjects (readIntEnv env.gitlab_max_assignees 10)
              (resolveAssignees raw (pyStrip (env.gitlab_username.getD ""))))
            ⟨[], lastTs0, t1, [], [], [], []⟩ hrun1
          have hall : ∀ w ∈ capSubjects (readIntEnv env.gitlab_max_assignees 10)
              (resolveAssignees raw (pyStrip (env.gitlab_username.getD ""))),
              ∃ dd, cacheServe (fetchRun env net raw params t1 ⟨[], lastTs0⟩).1.cache
                (mkKey (rstripSlash (env.gitlab_api_url.getD ""))
                  (paramsSet params "per_page" (.vInt (clampPerPage params))) w)
                t2 (readIntEnv env.gitlab_cache_ttl_seconds 30) = some dd := by
            intro w hw
            have hks : (cacheGet (fetchRun env net raw params t1 ⟨[], lastTs0⟩).1.cache
                (mkKey (rstripSlash (env.gitlab_api_url.getD ""))
                  (paramsSet params "per_page" (.vInt (clampPerPage params))) w)).isSome :=
              hkeys w hw
            cases hg : cacheGet (fetchRun env net raw params t1 ⟨[], lastTs0⟩).1.cache
                (mkKey (rstripSlash (env.gitlab_api_url.getD ""))
                  (paramsSet params "per_page" (.vInt (clampPerPage params))) w) with
            | none => rw [hg] at hks; cases hks
            | some e =>
                have hts : t1 ≤ e.ts := hfresh.1 _ e hg
                refine ⟨e.data, cacheServe_of_get _ _ t2 _ e hg ?_⟩
                omega
          have hhits := runLoop_all_hits net
            (rstripSlash (env.gitlab_api_url.getD ""))
            (paramsSet params "per_page" (.vInt (clampPerPage params)))
            (readIntEnv env.gitlab_cache_ttl_seconds 30)
            (readIntEnv env.gitlab_min_interval_ms 200)
            (capSubjects (readIntEnv env.gitlab_max_assignees 10)
              (resolveAssignees raw (pyStrip (env.gitlab_username.getD ""))))
            ⟨(fetchRun env net raw params t1 ⟨[], lastTs0⟩).1.cache,
             (fetchRun env net raw params t1 ⟨[], lastTs0⟩).1.lastTs,
             t2, [], [], [], []⟩ (by exact hall)
          rw [hst1, fetch_main env net raw params t2 _ h1 h2 h3]
          have hrun2 : (fetchRun env net raw params t2
              ⟨(fetchRun env net raw params t1 ⟨[], lastTs0⟩).1.cache,
               (fetchRun env net raw params t1 ⟨[], lastTs0⟩).1.lastTs⟩).2 = none :=
            hhits.2.2.2.2
          rw [hrun2]
          dsimp only
          exact hhits.1
      · have hfe : ∀ (t : ℤ) (st : St), fetch_gitlab_mrs env net raw params t st =
            ⟨.ok (none, none), st, [], []⟩ := by
          intro t st
          unfold fetch_gitlab_mrs
          rw [if_pos (by simp [Bool.eq_false_iff.mpr h2])]
        rw [hfe t1 ⟨[], lastTs0⟩, hfe t2 _]
    · have hfe : ∀ (t : ℤ) (st : St), fetch_gitlab_mrs env net raw params t st =
          ⟨.ok (none, none), st, [], []⟩ := by
        intro t st
        unfold fetch_gitlab_mrs
        rw [if_pos (by simp [Bool.eq_false_iff.mpr h1])]
      rw [hfe t1 ⟨[], lastTs0⟩, hfe t2 _]

/-- Witness for `cache_ttl_iff`: a concrete two-subject call from an empty
cache followed, ten seconds later (TTL 30 s), by the identical call performs
zero outbound requests the second time. -/
theorem cache_ttl_iff_witness :
    (fetch_gitlab_mrs ⟨some "https://x", some "tok", some "bob", none, none, none⟩
      (fun r => if r.uname = "a"
        then .resp 200 (some (.list [⟨some 1, 0⟩]))
        else .resp 200 (some (.list [⟨some 2, 2⟩])))
      "a,b" [] 10000000
      (fetch_gitlab_mrs ⟨some "https://x", some "tok", some "bob", none, none, none⟩
        (fun r => if r.uname = "a"
          then .resp 200 (some (.list [⟨some 1, 0⟩]))
          else .resp 200 (some (.list [⟨some 2, 2⟩])))
        "a,b" [] 0 ⟨[], none⟩).st).log = [] :=
  (cache_ttl_iff (fun r => if r.uname = "a"
      then .resp 200 (some (.list [⟨some 1, 0⟩]))
      else .resp 200 (some (.list [⟨some 2, 2⟩])))
    "https://x" [] 30 200 "a").2.2.2
    ⟨some "https://x", some "tok", some "bob", none, none, none⟩ "a,b" [] 0 10000000
    none (some [⟨some 1, 0⟩, ⟨some 2, 2⟩]) (some "bob") (by decide) (by decide)
    (by decide)

end MrFetcher
